import Mathlib

/-!
Verification of the CodeMap rust-cli core (scanner, differ, impact analyzer,
traverser and language adapters) against its natural-language specification.

The Rust sources are shallowly embedded:
  * `HashMap<String, V>` values are association lists `List (String × V)`;
    the list order stands for the (unspecified) iteration order of the map.
  * `HashSet<String>` accumulators are duplicate-free `List String` values
    built with an insert-if-absent operation.
  * Rust `Vec` is `List`, `String` is `String`; `sort()` on strings is
    modelled by insertion sort under code-point lexicographic order
    (identical to the byte order Rust uses on ASCII data).
  * tree-sitter parse trees are modelled by an inductive node type carrying
    kind, text, named-flag, field name, rows and children.
Filesystem and tree-sitter parsing are outside the embedding; functions that
consume their results take the parsed per-file records as arguments.
-/

/-! ## String ordering (Rust `Vec::sort` on `String`) -/

/-- Lexicographic comparison of char lists by code point, mirroring Rust's
`Ord` on `str` (byte order; identical on ASCII data). -/
def strLeList : List Char → List Char → Bool
  | [], _ => true
  | _ :: _, [] => false
  | a :: as, b :: bs =>
    if a.toNat < b.toNat then true
    else if a.toNat = b.toNat then strLeList as bs
    else false

/-- Lexicographic `≤` on strings by code point. -/
def strLe (a b : String) : Bool := strLeList a.data b.data

/-- The ordering relation used for every sorted list the code produces. -/
def StrLeR (a b : String) : Prop := strLe a b = true

instance : DecidableRel StrLeR := fun a b => instDecidableEqBool (strLe a b) true

theorem strLeList_total : ∀ as bs, strLeList as bs = true ∨ strLeList bs as = true := by
  intro as
  induction as with
  | nil => intro bs; left; rfl
  | cons a t ih =>
    intro bs
    cases bs with
    | nil => right; rfl
    | cons b bt =>
      by_cases hlt : a.toNat < b.toNat
      · left; simp [strLeList, hlt]
      · by_cases heq : a.toNat = b.toNat
        · rcases ih bt with h | h
          · left; simp [strLeList, heq, h]
          · right
            have hlt2 : ¬ b.toNat < a.toNat := by omega
            simp [strLeList, hlt2, heq.symm, h]
        · right
          have : b.toNat < a.toNat := by omega
          simp [strLeList, this]

theorem strLeList_trans :
    ∀ as bs cs, strLeList as bs = true → strLeList bs cs = true → strLeList as cs = true := by
  intro as
  induction as with
  | nil => intro bs cs _ _; rfl
  | cons a t ih =>
    intro bs cs hab hbc
    cases bs with
    | nil => simp [strLeList] at hab
    | cons b bt =>
      cases cs with
      | nil => simp [strLeList] at hbc
      | cons c ct =>
        simp only [strLeList] at hab hbc ⊢
        split at hab
        · rename_i h1
          split at hbc
          · rename_i h2; simp [show a.toNat < c.toNat by omega]
          · split at hbc
            · rename_i h2 h3; simp [show a.toNat < c.toNat by omega]
            · exact absurd hbc (by simp)
        · split at hab
          · rename_i h1 h2
            split at hbc
            · rename_i h3; simp [show a.toNat < c.toNat by omega]
            · split at hbc
              · rename_i h3 h4
                have hac : ¬ a.toNat < c.toNat := by omega
                simp [hac, show a.toNat = c.toNat by omega]
                exact ih bt ct hab hbc
              · exact absurd hbc (by simp)
          · exact absurd hab (by simp)

instance : IsTotal String StrLeR := ⟨fun a b => strLeList_total a.data b.data⟩

instance : IsTrans String StrLeR := ⟨fun a b c => strLeList_trans a.data b.data c.data⟩

/-- Model of Rust `Vec::<String>::sort()`. -/
def sortStrings (l : List String) : List String := l.insertionSort StrLeR

theorem sortStrings_sorted (l : List String) : (sortStrings l).Sorted StrLeR :=
  List.sorted_insertionSort StrLeR l

theorem sortStrings_perm (l : List String) : (sortStrings l).Perm l :=
  List.perm_insertionSort StrLeR l

theorem mem_sortStrings {x : String} {l : List String} : x ∈ sortStrings l ↔ x ∈ l :=
  (sortStrings_perm l).mem_iff

theorem sortStrings_nodup {l : List String} (h : l.Nodup) : (sortStrings l).Nodup :=
  ((sortStrings_perm l).nodup_iff).mpr h

/-! ## Association lists: the embedding of `HashMap<String, V>` -/

/-- `HashMap::get`. -/
def lookupA {α : Type} : List (String × α) → String → Option α
  | [], _ => none
  | p :: t, k => if p.1 = k then some p.2 else lookupA t k

/-- `HashMap::insert` (replaces the value under an existing key). -/
def insertA {α : Type} (l : List (String × α)) (k : String) (v : α) : List (String × α) :=
  if (lookupA l k).isSome then
    l.map (fun kv => if kv.1 = k then (k, v) else kv)
  else
    l ++ [(k, v)]

/-- `HashMap::remove` (drops every pair under the key). -/
def eraseA {α : Type} (l : List (String × α)) (k : String) : List (String × α) :=
  l.filter (fun kv => kv.1 ≠ k)

/-- `HashMap::get_mut` followed by a mutation: applies `f` under `k` when present. -/
def modifyA {α : Type} (l : List (String × α)) (k : String) (f : α → α) : List (String × α) :=
  l.map (fun kv => if kv.1 = k then (k, f kv.2) else kv)

/-- `HashMap::entry(k).or_insert_with(v)`. -/
def entryOrInsertA {α : Type} (l : List (String × α)) (k : String) (v : α) : List (String × α) :=
  if (lookupA l k).isSome then l else l ++ [(k, v)]

/-- `map.get(k).cloned().unwrap_or_default()`. -/
def getDA {α : Type} (l : List (String × α)) (k : String) (d : α) : α :=
  (lookupA l k).getD d

/-- `HashMap::keys` as a list. -/
def keysA {α : Type} (l : List (String × α)) : List String := l.map (·.1)

/-- The keys of the association list are pairwise distinct, which is always
true of the lists that stand for `HashMap` values. -/
def KeysNodup {α : Type} (l : List (String × α)) : Prop := (keysA l).Nodup

instance {α : Type} (l : List (String × α)) : Decidable (KeysNodup l) :=
  inferInstanceAs (Decidable (keysA l).Nodup)

theorem lookupA_eq_none {α : Type} {l : List (String × α)} {k : String} :
    lookupA l k = none ↔ k ∉ keysA l := by
  induction l with
  | nil => simp [lookupA, keysA]
  | cons p t ih =>
    by_cases h : p.1 = k
    · simp [lookupA, keysA, h]
    · simp [lookupA, keysA, h, Ne.symm h, ih]

theorem lookupA_isSome {α : Type} {l : List (String × α)} {k : String} :
    (lookupA l k).isSome ↔ k ∈ keysA l := by
  rw [Option.isSome_iff_ne_none, Ne, lookupA_eq_none, not_not]

theorem lookupA_append {α : Type} (l₁ l₂ : List (String × α)) (k : String) :
    lookupA (l₁ ++ l₂) k =
      match lookupA l₁ k with
      | some v => some v
      | none => lookupA l₂ k := by
  induction l₁ with
  | nil => simp [lookupA]
  | cons p t ih =>
    by_cases hp : p.1 = k <;> simp [lookupA, hp, ih]

theorem lookupA_mapReplace_ne {α : Type} (l : List (String × α)) (k k' : String) (v : α)
    (h : k ≠ k') :
    lookupA (l.map (fun kv => if kv.1 = k then (k, v) else kv)) k' = lookupA l k' := by
  induction l with
  | nil => simp [lookupA]
  | cons p t ih =>
    by_cases hp : p.1 = k
    · have he : (if p.1 = k then (k, v) else p) = (k, v) := by simp [hp]
      have hpk : p.1 ≠ k' := by rw [hp]; exact h
      simp only [List.map_cons, he]
      simp [lookupA, h, hpk, ih]
    · have he : (if p.1 = k then (k, v) else p) = p := by simp [hp]
      simp only [List.map_cons, he]
      by_cases hp' : p.1 = k' <;> simp [lookupA, hp', ih]

theorem lookupA_mapReplace_self {α : Type} (l : List (String × α)) (k : String) (v : α)
    (h : k ∈ keysA l) :
    lookupA (l.map (fun kv => if kv.1 = k then (k, v) else kv)) k = some v := by
  induction l with
  | nil => simp [keysA] at h
  | cons p t ih =>
    by_cases hp : p.1 = k
    · simp [lookupA, hp]
    · have ht : k ∈ keysA t := by
        simp [keysA] at h ⊢
        rcases h with h | h
        · exact absurd h.symm (by simpa using hp)
        · simpa [keysA] using h
      simp [lookupA, hp, ih ht]

theorem lookupA_mem {α : Type} {l : List (String × α)} {k : String} {v : α}
    (h : lookupA l k = some v) : (k, v) ∈ l := by
  induction l with
  | nil => simp [lookupA] at h
  | cons p t ih =>
    obtain ⟨p1, p2⟩ := p
    by_cases hp : p1 = k
    · simp [lookupA, hp] at h
      subst hp; subst h
      exact List.mem_cons_self _ _
    · simp [lookupA, hp] at h
      exact List.mem_cons_of_mem _ (ih h)

theorem mem_lookupA {α : Type} {l : List (String × α)} {k : String} {v : α}
    (hn : KeysNodup l) (h : (k, v) ∈ l) : lookupA l k = some v := by
  induction l with
  | nil => simp at h
  | cons p t ih =>
    have hcons : (p.1 :: keysA t).Nodup := hn
    have hnotin : p.1 ∉ keysA t := (List.nodup_cons.mp hcons).1
    have hn2 : KeysNodup t := (List.nodup_cons.mp hcons).2
    rcases List.mem_cons.mp h with h1 | h1
    · rw [← h1]
      simp [lookupA]
    · have hk : k ∈ keysA t := by
        have := List.mem_map_of_mem Prod.fst h1
        simpa [keysA] using this
      have hp : p.1 ≠ k := fun hc => hnotin (hc ▸ hk)
      simp [lookupA, hp]
      exact ih hn2 h1

theorem lookupA_insertA_self {α : Type} (l : List (String × α)) (k : String) (v : α) :
    lookupA (insertA l k v) k = some v := by
  unfold insertA
  split
  · rename_i hs
    exact lookupA_mapReplace_self l k v (lookupA_isSome.mp hs)
  · rw [lookupA_append]
    rename_i hs
    have : lookupA l k = none := by
      rcases h : lookupA l k with _ | w
      · rfl
      · simp [h] at hs
    simp [this, lookupA]

theorem lookupA_insertA_ne {α : Type} (l : List (String × α)) (k k' : String) (v : α)
    (h : k ≠ k') : lookupA (insertA l k v) k' = lookupA l k' := by
  unfold insertA
  split
  · exact lookupA_mapReplace_ne l k k' v h
  · rw [lookupA_append]
    rcases hl : lookupA l k' with _ | w <;> simp [lookupA, h]

theorem eraseA_cons_self {α : Type} (p : String × α) (t : List (String × α)) (k : String)
    (hp : p.1 = k) : eraseA (p :: t) k = eraseA t k := by
  simp [eraseA, hp]

theorem eraseA_cons_ne {α : Type} (p : String × α) (t : List (String × α)) (k : String)
    (hp : p.1 ≠ k) : eraseA (p :: t) k = p :: eraseA t k := by
  simp [eraseA, hp]

theorem lookupA_eraseA_ne {α : Type} (l : List (String × α)) (k k' : String)
    (h : k ≠ k') : lookupA (eraseA l k) k' = lookupA l k' := by
  induction l with
  | nil => rfl
  | cons p t ih =>
    by_cases hp : p.1 = k
    · rw [eraseA_cons_self p t k hp, ih]
      have hp' : p.1 ≠ k' := by rw [hp]; exact h
      simp [lookupA, hp']
    · rw [eraseA_cons_ne p t k hp]
      by_cases hp' : p.1 = k' <;> simp [lookupA, hp', ih]

theorem lookupA_eraseA_self {α : Type} (l : List (String × α)) (k : String) :
    lookupA (eraseA l k) k = none := by
  induction l with
  | nil => rfl
  | cons p t ih =>
    by_cases hp : p.1 = k
    · rw [eraseA_cons_self p t k hp]; exact ih
    · rw [eraseA_cons_ne p t k hp]
      simp [lookupA, hp, ih]

theorem lookupA_modifyA_ne {α : Type} (l : List (String × α)) (k k' : String) (f : α → α)
    (h : k ≠ k') : lookupA (modifyA l k f) k' = lookupA l k' := by
  induction l with
  | nil => simp [modifyA, lookupA]
  | cons p t ih =>
    simp only [modifyA, List.map_cons] at ih ⊢
    by_cases hp : p.1 = k
    · have he : (if p.1 = k then (k, f p.2) else p) = (k, f p.2) := by simp [hp]
      have hpk : p.1 ≠ k' := by rw [hp]; exact h
      rw [he]
      simp [lookupA, h, hpk, ih]
    · have he : (if p.1 = k then (k, f p.2) else p) = p := by simp [hp]
      rw [he]
      by_cases hp' : p.1 = k' <;> simp [lookupA, hp', ih]

theorem lookupA_modifyA_self {α : Type} (l : List (String × α)) (k : String) (f : α → α) :
    lookupA (modifyA l k f) k = (lookupA l k).map f := by
  induction l with
  | nil => simp [modifyA, lookupA]
  | cons p t ih =>
    simp only [modifyA, List.map_cons] at ih ⊢
    by_cases hp : p.1 = k
    · have he : (if p.1 = k then (k, f p.2) else p) = (k, f p.2) := by simp [hp]
      rw [he]
      simp [lookupA, hp]
    · have he : (if p.1 = k then (k, f p.2) else p) = p := by simp [hp]
      rw [he]
      simp [lookupA, hp, ih]

theorem lookupA_entryOrInsertA_ne {α : Type} (l : List (String × α)) (k k' : String) (v : α)
    (h : k ≠ k') : lookupA (entryOrInsertA l k v) k' = lookupA l k' := by
  unfold entryOrInsertA
  split
  · rfl
  · rw [lookupA_append]
    rcases hl : lookupA l k' with _ | w <;> simp [lookupA, h]

theorem lookupA_entryOrInsertA_self {α : Type} (l : List (String × α)) (k : String) (v : α) :
    lookupA (entryOrInsertA l k v) k = some ((lookupA l k).getD v) := by
  unfold entryOrInsertA
  split
  · rename_i hs
    rcases h : lookupA l k with _ | w
    · simp [h] at hs
    · simp [h]
  · rename_i hs
    rcases h : lookupA l k with _ | w
    · rw [lookupA_append]
      simp [h, lookupA]
    · simp [h] at hs

/-! ## Set-valued accumulators: the embedding of `HashSet<String>` -/

/-- `HashSet::insert`, keeping the membership list duplicate-free. -/
def insertSet (s : List String) (x : String) : List String :=
  if x ∈ s then s else s ++ [x]

theorem mem_insertSet {s : List String} {x y : String} :
    y ∈ insertSet s x ↔ y ∈ s ∨ y = x := by
  unfold insertSet
  split <;> rename_i h
  · constructor
    · exact Or.inl
    · rintro (hy | rfl)
      · exact hy
      · exact h
  · simp

theorem insertSet_nodup {s : List String} {x : String} (h : s.Nodup) :
    (insertSet s x).Nodup := by
  unfold insertSet
  split <;> rename_i hx
  · exact h
  · simpa [List.nodup_append, hx] using h

/-! ## Substring containment (Rust `str::contains`) -/

/-- Whether `sub` occurs as a contiguous substring of the second list. -/
def hasSubList (sub : List Char) : List Char → Bool
  | [] => sub.isEmpty
  | c :: t => sub.isPrefixOf (c :: t) || hasSubList sub t

/-- Rust `haystack.contains(needle)` on strings. -/
def strContains (haystack needle : String) : Bool :=
  hasSubList needle.data haystack.data

/-! ## Path utilities (src/rust-cli/src/path_utils.rs) -/

/-- Index of the last character satisfying `pred`, if any (Rust `str::rfind`). -/
def rfindIdx (pred : Char → Bool) (l : List Char) : Option Nat :=
  match l.reverse.findIdx? pred with
  | none => none
  | some i => some (l.length - 1 - i)

/-- `strip_extension`: removes the last dot suffix only when the dot appears
after the last slash. -/
def stripExtension (path : String) : String :=
  let cs := path.data
  match rfindIdx (fun c => c = '.') cs with
  | none => path
  | some dot =>
    let slash := match rfindIdx (fun c => c = '/') cs with
      | some i => i + 1
      | none => 0
    if slash < dot then ⟨cs.take dot⟩ else path

/-- `posix_dirname`: the substring before the last slash, `/` for a leading
slash only, `.` when there is no slash. -/
def posixDirname (path : String) : String :=
  match rfindIdx (fun c => c = '/') path.data with
  | some i => if 0 < i then ⟨path.data.take i⟩ else "/"
  | none => "."

/-- `posix_normalize`: splits on `/`, discards empty and `.` segments, pops on
`..`, rejoins with `/`. -/
def posixNormalize (path : String) : String :=
  let segs := path.data.splitOn '/'
  let parts := segs.foldl
    (fun (acc : List (List Char)) seg =>
      if seg = [] ∨ seg = ['.'] then acc
      else if seg = ['.', '.'] then acc.dropLast
      else acc ++ [seg])
    []
  ⟨List.intercalate (['/'] : List Char) parts⟩

/-- Rust `str::replace('\\', "/")` (single-char pattern). -/
def backslashToSlash (s : String) : String :=
  ⟨s.data.map (fun c => if c = '\\' then '/' else c)⟩

/-- `normalize_path` on the string form of an OS path. -/
def normalizeStr (s : String) : String :=
  posixNormalize (backslashToSlash s)

/-- Rust `Path::parent` rendered on slash-separated strings: the part before
the last slash, or the empty path when there is none. -/
def pathParentStr (p : String) : String :=
  match rfindIdx (fun c => c = '/') p.data with
  | some i => ⟨p.data.take i⟩
  | none => ""

/-- Rust `Path::join` for a non-absolute right-hand side. -/
def pathJoinStr (a b : String) : String :=
  if a = "" then b else a ++ "/" ++ b

/-! ## Graph data model (src/rust-cli/src/graph.rs) -/

structure FunctionInfo where
  name : String
  signature : String
  startLine : Nat
  endLine : Nat
deriving DecidableEq

structure ImportInfo where
  source : String
  symbols : List String
  isExternal : Bool
deriving DecidableEq

structure ClassInfo where
  name : String
  startLine : Nat
  endLine : Nat
deriving DecidableEq

structure TypeInfo where
  name : String
  kind : String
  startLine : Nat
  endLine : Nat
deriving DecidableEq

structure FileEntry where
  language : String
  module : String
  hash : String
  lines : Nat
  functions : List FunctionInfo
  classes : List ClassInfo
  types : List TypeInfo
  imports : List ImportInfo
  exports : List String
  isEntryPoint : Bool
deriving DecidableEq

structure ModuleEntry where
  files : List String
  dependsOn : List String
  dependedBy : List String
deriving DecidableEq

structure ProjectInfo where
  name : String
  root : String
deriving DecidableEq

structure GraphSummary where
  totalFiles : Nat
  totalFunctions : Nat
  totalClasses : Nat
  languages : List (String × Nat)
  modules : List String
  entryPoints : List String
deriving DecidableEq

structure GraphConfig where
  languages : List String
  excludePatterns : List String
deriving DecidableEq

structure CodeGraph where
  version : String
  project : ProjectInfo
  scannedAt : String
  commitHash : Option String
  config : GraphConfig
  summary : GraphSummary
  modules : List (String × ModuleEntry)
  files : List (String × FileEntry)
deriving DecidableEq

/-- `ModuleEntry` with all three lists empty, as built by
`merge_graph_update` step 2 and by the scanner's module initialization. -/
def emptyModuleEntry : ModuleEntry := ⟨[], [], []⟩

/-! ## Traverser (src/rust-cli/src/traverser.rs) -/

/-- The `Language` enum of the traverser (named `Lang` here because Mathlib
already declares a root `Language`). -/
inductive Lang where
  | typescript
  | javascript
  | python
  | go
  | rust
  | java
  | c
  | cpp
deriving DecidableEq

def Lang.asStr : Lang → String
  | .typescript => "typescript"
  | .javascript => "javascript"
  | .python => "python"
  | .go => "go"
  | .rust => "rust"
  | .java => "java"
  | .c => "c"
  | .cpp => "cpp"

/-- ASCII lowercasing of every character (Rust `str::to_lowercase` restricted
to the ASCII range the extension table uses). -/
def asciiLower (s : String) : String := ⟨s.data.map Char.toLower⟩

/-- The last path component (Rust `Path::file_name` on a normal path). -/
def fileNameOf (p : String) : String :=
  ⟨(p.data.reverse.takeWhile (fun c => c ≠ '/')).reverse⟩

/-- Extension of a file name under Rust `Path::extension` semantics: the part
after the last dot, unless the only dot starts the name. -/
def extOfName (f : List Char) : Option String :=
  let afterDot := f.reverse.takeWhile (fun c => c ≠ '.')
  if afterDot.length = f.length then none
  else
    let stem := f.take (f.length - afterDot.length - 1)
    if stem.isEmpty then none else some ⟨afterDot.reverse⟩

/-- Rust `Path::extension` on the string form of a path. -/
def pathExtension (p : String) : Option String :=
  extOfName (fileNameOf p).data

/-- The extension table of `detect_language`, applied to the lowercased
extension. -/
def languageOfExt (e : String) : Option Lang :=
  if e = "ts" ∨ e = "tsx" then some .typescript
  else if e = "js" ∨ e = "jsx" ∨ e = "mjs" ∨ e = "cjs" then some .javascript
  else if e = "py" then some .python
  else if e = "go" then some .go
  else if e = "rs" then some .rust
  else if e = "java" then some .java
  else if e = "c" ∨ e = "h" then some .c
  else if e = "cpp" ∨ e = "cc" ∨ e = "cxx" ∨ e = "hpp" ∨ e = "hh" then some .cpp
  else none

/-- `detect_language`: lowercases the extension, then matches the table. -/
def detectLanguage (p : String) : Option Lang :=
  match pathExtension p with
  | none => none
  | some e => languageOfExt (asciiLower e)

/-- Whether a lowercased extension is C++-specific. -/
def isCppExt (e : String) : Bool :=
  e = "cpp" ∨ e = "cc" ∨ e = "cxx" ∨ e = "hpp" ∨ e = "hh"

/-- `has_cpp_source_files`. -/
def hasCppSourceFiles (files : List String) : Bool :=
  files.any (fun f =>
    match pathExtension f with
    | some e => isCppExt (asciiLower e)
    | none => false)

/-- `effective_language`: reclassifies `.h` as C++ when the project has C++
sources. -/
def effectiveLanguage (p : String) (base : Lang) (projectHasCpp : Bool) : Lang :=
  if base = Lang.c ∧ projectHasCpp = true ∧ (pathExtension p).map asciiLower = some "h"
  then Lang.cpp
  else base

/-! ## Differ: change detection (src/rust-cli/src/differ.rs) -/

structure ChangeSet where
  added : List String
  modified : List String
  removed : List String
  unchanged : List String
deriving DecidableEq

/-- `ChangeSet::is_empty` (the `unchanged` list is deliberately ignored). -/
def ChangeSet.isEmptyCS (c : ChangeSet) : Bool :=
  c.added.isEmpty && c.modified.isEmpty && c.removed.isEmpty

/-- Whether a string starts with a dot (Rust `source.starts_with('.')`). -/
def startsWithDot (s : String) : Bool :=
  match s.data with
  | c :: _ => c = '.'
  | [] => false

/-- `detect_changed_files`. The Rust loop partitions the keys of `new_hashes`
into `added` / `modified` / `unchanged` by the three mutually exclusive cases
of `old_hashes.get(path)` and collects `removed` from the keys of
`old_hashes` absent from `new_hashes`; the partition is written here as three
filters over the same cases. All four lists are sorted at the end. -/
def detectChangedFiles (oldHashes newHashes : List (String × String)) : ChangeSet :=
  let added := (newHashes.filter (fun pk => (lookupA oldHashes pk.1).isNone)).map (·.1)
  let modified := (newHashes.filter (fun pk =>
      match lookupA oldHashes pk.1 with
      | some oldh => decide (oldh ≠ pk.2)
      | none => false)).map (·.1)
  let unchanged := (newHashes.filter (fun pk =>
      match lookupA oldHashes pk.1 with
      | some oldh => decide (oldh = pk.2)
      | none => false)).map (·.1)
  let removed := (oldHashes.filter (fun pk => (lookupA newHashes pk.1).isNone)).map (·.1)
  ⟨sortStrings added, sortStrings modified, sortStrings removed, sortStrings unchanged⟩

/-! ## Differ: dependency rebuild (rebuild_dependencies) -/

/-- The pair of set-valued maps `depends_on` / `depended_by`. -/
structure EdgeMaps where
  dependsM : List (String × List String)
  dependedM : List (String × List String)

/-- The relPath → module lookup table of `rebuild_dependencies`, including the
extension-stripped alias inserted first-wins. -/
def buildPathLookup (files : List (String × FileEntry)) : List (String × String) :=
  files.foldl
    (fun pl pf =>
      let norm := backslashToSlash pf.1
      entryOrInsertA (insertA pl norm pf.2.module) (stripExtension norm) pf.2.module)
    []

/-- Initialization of both edge maps with one empty set per module key. -/
def initEdgeMaps (modules : List (String × ModuleEntry)) : EdgeMaps :=
  modules.foldl
    (fun em me => ⟨insertA em.dependsM me.1 [], insertA em.dependedM me.1 []⟩)
    ⟨[], []⟩

/-- Records one resolved cross-module import: `depends_on.get_mut` and
`depended_by.get_mut` each insert only when the key is present. -/
def recordEdge (em : EdgeMaps) (importerMod targetMod : String) : EdgeMaps :=
  ⟨modifyA em.dependsM importerMod (fun s => insertSet s targetMod),
   modifyA em.dependedM targetMod (fun s => insertSet s importerMod)⟩

/-- Relative-import resolution of `rebuild_dependencies`: join the importer's
posix dirname with the source, normalize, look up exactly, then with `/index`
appended. -/
def rebuildResolve (pathLookup : List (String × String)) (normPath source : String) :
    Option String :=
  let importerDir := posixDirname normPath
  let resolved := posixNormalize (importerDir ++ "/" ++ source)
  match lookupA pathLookup resolved with
  | some m => some m
  | none => lookupA pathLookup (resolved ++ "/index")

/-- The per-file inner loop of `rebuild_dependencies`. -/
def rebuildFileEdges (pathLookup : List (String × String)) (em : EdgeMaps)
    (pf : String × FileEntry) : EdgeMaps :=
  let normPath := backslashToSlash pf.1
  pf.2.imports.foldl
    (fun em imp =>
      if imp.isExternal = true ∨ startsWithDot imp.source = false then em
      else
        match rebuildResolve pathLookup normPath imp.source with
        | some targetMod =>
          if targetMod ≠ pf.2.module then recordEdge em pf.2.module targetMod else em
        | none => em)
    em

/-- Writes the collected edge sets back into the module table, sorted. -/
def writebackEdges (modules : List (String × ModuleEntry)) (em : EdgeMaps) :
    List (String × ModuleEntry) :=
  modules.map (fun me =>
    (me.1,
     { me.2 with
        dependsOn := sortStrings (getDA em.dependsM me.1 [])
        dependedBy := sortStrings (getDA em.dependedM me.1 []) }))

/-- `rebuild_dependencies`. -/
def rebuildDependencies (g : CodeGraph) : CodeGraph :=
  let pathLookup := buildPathLookup g.files
  let em := g.files.foldl (rebuildFileEdges pathLookup) (initEdgeMaps g.modules)
  { g with modules := writebackEdges g.modules em }

/-! ## Differ: summary recomputation and merge (recalculate_summary, merge_graph_update) -/

/-- `recalculate_summary`. -/
def recalculateSummary (g : CodeGraph) : CodeGraph :=
  let acc := g.files.foldl
    (fun (a : Nat × Nat × Nat × List (String × Nat)) pf =>
      (a.1 + 1, a.2.1 + pf.2.functions.length, a.2.2.1 + pf.2.classes.length,
       modifyA (entryOrInsertA a.2.2.2 pf.2.language 0) pf.2.language (· + 1)))
    (0, 0, 0, [])
  let modList := sortStrings (keysA g.modules)
  let entryPoints := sortStrings ((g.files.filter (fun pf => pf.2.isEntryPoint)).map (·.1))
  let langList := sortStrings (keysA acc.2.2.2)
  { g with
      summary :=
        { totalFiles := acc.1
          totalFunctions := acc.2.1
          totalClasses := acc.2.2.1
          languages := acc.2.2.2
          modules := modList
          entryPoints := entryPoints }
      config := { g.config with languages := langList } }

/-- Step 1 of `merge_graph_update` for one removed path. -/
def mergeRemoveFile (g : CodeGraph) (filePath : String) : CodeGraph :=
  match lookupA g.files filePath with
  | none => g
  | some fd =>
    { g with
        files := eraseA g.files filePath
        modules := modifyA g.modules fd.module
          (fun m => { m with files := m.files.filter (fun f => f ≠ filePath) }) }

/-- Step 2 of `merge_graph_update` for one updated `(relPath, entry)` pair. -/
def mergeAddFile (g : CodeGraph) (pf : String × FileEntry) : CodeGraph :=
  let g1 :=
    match lookupA g.files pf.1 with
    | some existing =>
      if existing.module ≠ pf.2.module then
        { g with
            modules := modifyA g.modules existing.module
              (fun m => { m with files := m.files.filter (fun f => f ≠ pf.1) }) }
      else g
    | none => g
  let g2 := { g1 with modules := entryOrInsertA g1.modules pf.2.module emptyModuleEntry }
  let g3 :=
    { g2 with
        modules := modifyA g2.modules pf.2.module
          (fun m => if pf.1 ∈ m.files then m else { m with files := m.files ++ [pf.1] }) }
  { g3 with files := insertA g3.files pf.1 pf.2 }

/-- `merge_graph_update`: remove, add/replace, reap empty modules, then
recompute summary and dependency edges. -/
def mergeGraphUpdate (g : CodeGraph) (updatedFiles : List (String × FileEntry))
    (removedFiles : List String) : CodeGraph :=
  let g1 := removedFiles.foldl mergeRemoveFile g
  let g2 := updatedFiles.foldl mergeAddFile g1
  let g3 := { g2 with modules := g2.modules.filter (fun me => ¬ me.2.files.isEmpty) }
  rebuildDependencies (recalculateSummary g3)

/-! ## Scanner (src/rust-cli/src/scanner.rs, steps 3 to 6 of scan_project)

Steps 1 and 2 (file traversal, reading and tree-sitter parsing) live outside
the embedding; `ScanFile` is the per-file record the step-2 loop accumulates
in `file_infos`, already converted to graph-level fact types. -/

structure ScanFile where
  absPath : String
  relPath : String
  language : String
  moduleName : String
  hash : String
  lines : Nat
  functions : List FunctionInfo
  classes : List ClassInfo
  types : List TypeInfo
  imports : List ImportInfo
  exports : List String
  isEntryPoint : Bool
deriving DecidableEq

/-- `create_empty_graph` (timestamp passed in). -/
def createEmptyGraph (projectName rootDir now : String) : CodeGraph :=
  ⟨"1.0", ⟨projectName, rootDir⟩, now, none, ⟨[], []⟩, ⟨0, 0, 0, [], [], []⟩, [], []⟩

/-- The `module_set` accumulated during step 2. -/
def scanModuleSet (infos : List ScanFile) : List String :=
  infos.foldl (fun s i => insertSet s i.moduleName) []

/-- The absolute-path → module lookup table of `scan_project`. -/
def scanPathLookup (infos : List ScanFile) : List (String × String) :=
  infos.foldl
    (fun pl i =>
      let norm := backslashToSlash i.absPath
      entryOrInsertA (insertA pl norm i.moduleName) (stripExtension norm) i.moduleName)
    []

/-- `resolve_import_module`: only dot-leading sources resolve; the importer's
parent directory is joined with the source and normalized, then looked up
exactly and with `/index` appended. -/
def resolveImportModule (importerPath source : String)
    (pathLookup : List (String × String)) : Option String :=
  if startsWithDot source = false then none
  else
    let importerDir := pathParentStr (backslashToSlash importerPath)
    let resolved := normalizeStr (pathJoinStr importerDir source)
    match lookupA pathLookup resolved with
    | some m => some m
    | none => lookupA pathLookup (resolved ++ "/index")

/-- Step-4 edge recording of `scan_project`:
`entry(..).or_default().insert(..)` on both maps. -/
def scanRecordEdge (em : EdgeMaps) (importerMod targetMod : String) : EdgeMaps :=
  ⟨modifyA (entryOrInsertA em.dependsM importerMod []) importerMod
      (fun s => insertSet s targetMod),
   modifyA (entryOrInsertA em.dependedM targetMod []) targetMod
      (fun s => insertSet s importerMod)⟩

/-- The `FileEntry` written into `graph.files` for one scanned file. -/
def scanFileEntry (i : ScanFile) : FileEntry :=
  ⟨i.language, i.moduleName, i.hash, i.lines, i.functions, i.classes, i.types,
   i.imports, i.exports, i.isEntryPoint⟩

/-- One iteration of the step-4 loop: resolve the file's imports into edges,
insert the file entry, push the relPath onto its module's file list. -/
def scanFileStep (pathLookup : List (String × String))
    (acc : EdgeMaps × List (String × FileEntry) × List (String × ModuleEntry))
    (i : ScanFile) : EdgeMaps × List (String × FileEntry) × List (String × ModuleEntry) :=
  let em := i.imports.foldl
    (fun em imp =>
      if imp.isExternal = true then em
      else
        match resolveImportModule i.absPath imp.source pathLookup with
        | some targetMod =>
          if targetMod ≠ i.moduleName then scanRecordEdge em i.moduleName targetMod else em
        | none => em)
    acc.1
  let files := insertA acc.2.1 i.relPath (scanFileEntry i)
  let modules := modifyA acc.2.2 i.moduleName
    (fun m => { m with files := m.files ++ [i.relPath] })
  (em, files, modules)

/-- Steps 3 to 6 of `scan_project`, from the parsed per-file records. -/
def scanBuild (projectName rootStr now : String) (infos : List ScanFile) : CodeGraph :=
  let graph0 := createEmptyGraph projectName rootStr now
  let moduleSet := scanModuleSet infos
  let modules0 := moduleSet.foldl (fun ms m => insertA ms m emptyModuleEntry) []
  let pathLookup := scanPathLookup infos
  let em0 := moduleSet.foldl
    (fun em m => ⟨insertA em.dependsM m [], insertA em.dependedM m []⟩)
    (⟨[], []⟩ : EdgeMaps)
  let step4 := infos.foldl (scanFileStep pathLookup) (em0, [], modules0)
  let modules1 := writebackEdges step4.2.2 step4.1
  let langCounts := infos.foldl
    (fun (lc : List (String × Nat)) i =>
      modifyA (entryOrInsertA lc i.language 0) i.language (· + 1))
    []
  { graph0 with
      files := step4.2.1
      modules := modules1
      summary :=
        { totalFiles := infos.length
          totalFunctions := infos.foldl (fun n i => n + i.functions.length) 0
          totalClasses := infos.foldl (fun n i => n + i.classes.length) 0
          languages := langCounts
          modules := sortStrings moduleSet
          entryPoints := sortStrings
            ((step4.2.1.filter (fun pf => pf.2.isEntryPoint)).map (·.1)) }
      config := { graph0.config with languages := sortStrings (keysA langCounts) } }

/-! ## Impact analyzer (src/rust-cli/src/impact.rs) -/

inductive TargetType where
  | module
  | file
deriving DecidableEq

def TargetType.asStr : TargetType → String
  | .module => "module"
  | .file => "file"

structure ImpactResult where
  targetType : TargetType
  targetModule : String
  directDependants : List String
  transitiveDependants : List String
  impactedModules : List String
  impactedFiles : List String
deriving DecidableEq

/-- `resolve_target`: exact module key, exact file key, then the first file
key (in the map's iteration order) containing the target as a substring. The
second lookup after a substring hit cannot miss because the hit is a key; the
`none` arm only keeps the function total. -/
def resolveTarget (g : CodeGraph) (target : String) : TargetType × String :=
  if (lookupA g.modules target).isSome then (TargetType.module, target)
  else
    match lookupA g.files target with
    | some f => (TargetType.file, f.module)
    | none =>
      match (keysA g.files).find? (fun f => strContains f target) with
      | some matched =>
        match lookupA g.files matched with
        | some fe => (TargetType.file, fe.module)
        | none => (TargetType.module, target)
      | none => (TargetType.module, target)

/-- The inner neighbour loop of `bfs_dependants` for one dequeued module:
returns the grown visited set and the list of newly visited modules (which
the outer loop both appends to the result and enqueues). -/
def bfsScanDeps (deps : List String) (visited : List String) :
    List String × List String :=
  deps.foldl
    (fun (acc : List String × List String) dep =>
      if dep ∈ acc.1 then acc else (acc.1 ++ [dep], acc.2 ++ [dep]))
    (visited, [])

/-- Fold characterization of the neighbour loop: the visited set and the
added list both grow by the same duplicate-free block of previously
unvisited dependants. -/
theorem bfsScanDeps_general (deps : List String) :
    ∀ v a, ∃ added : List String,
      (deps.foldl
        (fun (acc : List String × List String) dep =>
          if dep ∈ acc.1 then acc else (acc.1 ++ [dep], acc.2 ++ [dep])) (v, a)) =
        (v ++ added, a ++ added) ∧
      (∀ x ∈ added, x ∈ deps ∧ x ∉ v) ∧ added.Nodup := by
  induction deps with
  | nil =>
    intro v a
    exact ⟨[], by simp, by simp, by simp⟩
  | cons d t ih =>
    intro v a
    by_cases hd : d ∈ v
    · rcases ih v a with ⟨added, heq, hmem, hnd⟩
      refine ⟨added, by simpa [List.foldl_cons, hd] using heq, ?_, hnd⟩
      intro x hx
      exact ⟨List.mem_cons_of_mem _ (hmem x hx).1, (hmem x hx).2⟩
    · rcases ih (v ++ [d]) (a ++ [d]) with ⟨added, heq, hmem, hnd⟩
      refine ⟨d :: added, ?_, ?_, ?_⟩
      · simpa [List.foldl_cons, hd, List.append_assoc] using heq
      · intro x hx
        rcases List.mem_cons.mp hx with rfl | hx
        · exact ⟨List.mem_cons_self _ _, hd⟩
        · have h2 := hmem x hx
          refine ⟨List.mem_cons_of_mem _ h2.1, fun hv => h2.2 (List.mem_append_left _ hv)⟩
      · refine List.nodup_cons.mpr ⟨fun hda => ?_, hnd⟩
        exact (hmem d hda).2 (List.mem_append_right _ (List.mem_singleton.mpr rfl))

theorem bfsScanDeps_spec (deps visited : List String) :
    ∃ added : List String,
      bfsScanDeps deps visited = (visited ++ added, added) ∧
      (∀ x ∈ added, x ∈ deps ∧ x ∉ visited) ∧ added.Nodup := by
  rcases bfsScanDeps_general deps visited [] with ⟨added, heq, hmem, hnd⟩
  exact ⟨added, by simpa [bfsScanDeps] using heq, hmem, hnd⟩

/-- Every module name that can ever be enqueued by the BFS: the merged
dependants lists of the module table, deduplicated (used only as a
termination measure). -/
def allDeps (modules : List (String × ModuleEntry)) : List String :=
  ((modules.map (fun me => me.2.dependedBy)).flatten).dedup

theorem mem_allDeps {modules : List (String × ModuleEntry)} {cur : String}
    {me : ModuleEntry} {x : String} (hl : lookupA modules cur = some me)
    (hx : x ∈ me.dependedBy) : x ∈ allDeps modules := by
  have hmem : (cur, me) ∈ modules := lookupA_mem hl
  have : me.dependedBy ∈ modules.map (fun p => p.2.dependedBy) :=
    List.mem_map_of_mem _ hmem
  exact List.mem_dedup.mpr (List.mem_flatten.mpr ⟨me.dependedBy, this, hx⟩)

/-- The `while let Some((current, depth)) = queue.pop_front()` loop of
`bfs_dependants`: depth-gated breadth-first walk over `dependedBy` edges. -/
def bfsLoop (modules : List (String × ModuleEntry)) (maxDepth : Nat) :
    List String → List (String × Nat) → List String → List String
  | _, [], result => result
  | visited, (cur, depth) :: rest, result =>
    if maxDepth ≤ depth then bfsLoop modules maxDepth visited rest result
    else
      match hcur : lookupA modules cur with
      | none => bfsLoop modules maxDepth visited rest result
      | some me =>
        let scanned := bfsScanDeps me.dependedBy visited
        bfsLoop modules maxDepth scanned.1
          (rest ++ scanned.2.map (fun d => (d, depth + 1))) (result ++ scanned.2)
termination_by visited queue _ =>
  2 * ((allDeps modules).toFinset \ visited.toFinset).card + queue.length
decreasing_by
  · simp
  · simp
  · rcases bfsScanDeps_spec me.dependedBy visited with ⟨added, heq, hmem, hnd⟩
    have h1 : (bfsScanDeps me.dependedBy visited).1 = visited ++ added := by rw [heq]
    have h2 : (bfsScanDeps me.dependedBy visited).2 = added := by rw [heq]
    rw [h1, h2]
    have hsub : added.toFinset ⊆ (allDeps modules).toFinset \ visited.toFinset := by
      intro x hx
      have hx2 := List.mem_toFinset.mp hx
      rcases hmem x hx2 with ⟨hdep, hnv⟩
      refine Finset.mem_sdiff.mpr ⟨List.mem_toFinset.mpr ?_, ?_⟩
      · exact mem_allDeps hcur hdep
      · exact fun hc => hnv (List.mem_toFinset.mp hc)
    have hunion : (visited ++ added).toFinset = visited.toFinset ∪ added.toFinset :=
      List.toFinset_append
    have hdiff : (allDeps modules).toFinset \ (visited.toFinset ∪ added.toFinset) =
        ((allDeps modules).toFinset \ visited.toFinset) \ added.toFinset := by
      ext x
      simp only [Finset.mem_sdiff, Finset.mem_union]
      tauto
    have hcard : (((allDeps modules).toFinset \ visited.toFinset) \ added.toFinset).card =
        ((allDeps modules).toFinset \ visited.toFinset).card - added.toFinset.card :=
      Finset.card_sdiff hsub
    have hle : added.toFinset.card ≤ ((allDeps modules).toFinset \ visited.toFinset).card :=
      Finset.card_le_card hsub
    have hlen : added.toFinset.card = added.length := List.toFinset_card_of_nodup hnd
    rw [hunion, hdiff, hcard]
    simp only [List.length_append, List.length_map, List.length_cons]
    omega

/-- `bfs_dependants`: the start module is pre-visited, enqueued at depth 0,
and the collected dependants are sorted at the end. -/
def bfsDependants (modules : List (String × ModuleEntry)) (start : String)
    (maxDepth : Nat) : List String :=
  sortStrings (bfsLoop modules maxDepth [start] [(start, 0)] [])

/-- `analyze_impact`. -/
def analyzeImpact (g : CodeGraph) (target : String) (maxDepth : Nat) : ImpactResult :=
  let rt := resolveTarget g target
  let direct :=
    match lookupA g.modules rt.2 with
    | some m => m.dependedBy
    | none => []
  let transitive := bfsDependants g.modules rt.2 maxDepth
  let impactedModules := rt.2 :: transitive
  let impactedFiles := sortStrings
    (((impactedModules.filterMap (fun m => lookupA g.modules m)).map
      (fun m => m.files)).flatten)
  ⟨rt.1, rt.2, direct, transitive, impactedModules, impactedFiles⟩

/-! ## The update command (src/rust-cli/src/commands/update.rs)

Everything after loading the graph and hashing the on-disk files is modelled;
loading, traversal and hashing themselves are effectful and supply the
`oldHashes` / `newHashes` arguments. Parsing a changed file is likewise kept
abstract: `parsedEntry p` is the `FileEntry` the adapter pipeline produces
for relPath `p` (`none` when the file is skipped by a `continue`). The
`writes` list records the relative paths the command writes, in order; the
early `return` on an empty changeset produces no writes and leaves the
loaded graph untouched. -/

structure UpdateOutcome where
  changes : ChangeSet
  graph : CodeGraph
  writes : List String
deriving DecidableEq

/-- The files `save_slices` writes: the overview plus one document per module. -/
def sliceWritePaths (g : CodeGraph) : List String :=
  "slices/_overview.json" :: (keysA g.modules).map (fun m => "slices/" ++ m ++ ".json")

/-- The decision core of `commands::update::run`. -/
def updateRun (g : CodeGraph) (oldHashes newHashes : List (String × String))
    (parsedEntry : String → Option FileEntry) (now : String) : UpdateOutcome :=
  let changes := detectChangedFiles oldHashes newHashes
  if changes.isEmptyCS then ⟨changes, g, []⟩
  else
    let updatedFiles := (changes.added ++ changes.modified).filterMap
      (fun p => (parsedEntry p).map (fun e => (p, e)))
    let g1 := mergeGraphUpdate g updatedFiles changes.removed
    let g2 := { g1 with scannedAt := now }
    ⟨changes, g2, "graph.json" :: "meta.json" :: sliceWritePaths g2⟩

/-! ## tree-sitter node model (used by src/rust-cli/src/languages/) -/

/-- A parse-tree node: tree-sitter `kind`, source text (`node_text`), the
named flag, the field name this node occupies in its parent (if any),
0-based start/end rows, and the children in document order. -/
inductive TSNode : Type where
  | mk (kind : String) (text : String) (isNamed : Bool) (fieldName : Option String)
       (startRow endRow : Nat) (children : List TSNode)

def TSNode.kind : TSNode → String
  | .mk k _ _ _ _ _ _ => k

def TSNode.text : TSNode → String
  | .mk _ t _ _ _ _ _ => t

def TSNode.isNamed : TSNode → Bool
  | .mk _ _ n _ _ _ _ => n

def TSNode.fieldName : TSNode → Option String
  | .mk _ _ _ f _ _ _ => f

def TSNode.startRow : TSNode → Nat
  | .mk _ _ _ _ s _ _ => s

def TSNode.endRow : TSNode → Nat
  | .mk _ _ _ _ _ e _ => e

def TSNode.children : TSNode → List TSNode
  | .mk _ _ _ _ _ _ cs => cs

/-- `node.child_by_field_name(f)`: the first child carrying field `f`. -/
def childByField (n : TSNode) (f : String) : Option TSNode :=
  n.children.find? (fun c => c.fieldName = some f)

/-- `node.named_child(i)`. -/
def namedChild (n : TSNode) (i : Nat) : Option TSNode :=
  (n.children.filter (fun c => c.isNamed)).get? i

/-- `find_child_of_type` from languages/mod.rs. -/
def findChildOfType (n : TSNode) (kind : String) : Option TSNode :=
  n.children.find? (fun c => c.kind = kind)

/-- `strip_quotes` from languages/mod.rs: `trim_matches` on single, double
and backtick quotes. -/
def isQuoteChar (c : Char) : Bool :=
  c = Char.ofNat 39 || c = Char.ofNat 34 || c = Char.ofNat 96

def stripQuotes (s : String) : String :=
  ⟨((s.data.dropWhile isQuoteChar).reverse.dropWhile isQuoteChar).reverse⟩

/-! ## Python adapter (src/rust-cli/src/languages/python.rs) -/

/-- The `ExportInfo` of languages/mod.rs. -/
structure ExportInfo where
  name : String
  kind : String
deriving DecidableEq

/-- The `FunctionInfo` of languages/mod.rs (adapter level). -/
structure LangFunctionInfo where
  name : String
  startLine : Nat
  endLine : Nat
  params : List String
  isExported : Bool
deriving DecidableEq

/-- `unwrap_decorated`: the node itself when it already has the expected
kind, else the first child of that kind under a `decorated_definition`. -/
def unwrapDecorated (n : TSNode) (expected : String) : Option TSNode :=
  if n.kind = expected then some n
  else if n.kind = "decorated_definition" then
    n.children.find? (fun c => c.kind = expected)
  else none

/-- `extract_list_strings`: `None` unless the node is a `list`, else the
quote-stripped texts of its `string` children. -/
def extractListStrings (n : TSNode) : Option (List String) :=
  if n.kind = "list" then
    some ((n.children.filter (fun c => c.kind = "string")).map
      (fun c => stripQuotes c.text))
  else none

/-- One root child of `extract_dunder_all`: the right-hand side node on which
the Rust loop would `return extract_list_strings(right)`, if this child is an
`__all__` assignment (either wrapped in an `expression_statement` or a bare
`assignment`). -/
def dunderHit (child : TSNode) : Option TSNode :=
  let fromAssign := fun (expr : TSNode) =>
    if expr.kind = "assignment" then
      match childByField expr "left" with
      | some left =>
        if left.text = "__all__" then childByField expr "right" else none
      | none => none
    else none
  if child.kind = "expression_statement" then
    match namedChild child 0 with
    | some expr => fromAssign expr
    | none => none
  else fromAssign child

/-- `extract_dunder_all`: scan root children; the first `__all__` assignment
ends the scan with `extract_list_strings` of its right-hand side. -/
def extractDunderAll (root : TSNode) : Option (List String) :=
  match root.children.findSome? dunderHit with
  | some right => extractListStrings right
  | none => none

/-- `PythonAdapter::extract_exports`: the `__all__` entries as `variable`
exports when present, otherwise every top-level def and class. -/
def pyExtractExports (root : TSNode) : List ExportInfo :=
  match extractDunderAll root with
  | some allExports => allExports.map (fun name => ⟨name, "variable"⟩)
  | none =>
    root.children.filterMap (fun child =>
      match unwrapDecorated child "function_definition" with
      | some func => (childByField func "name").map (fun n => ⟨n.text, "function"⟩)
      | none =>
        match unwrapDecorated child "class_definition" with
        | some cls => (childByField cls "name").map (fun n => ⟨n.text, "class"⟩)
        | none => none)

/-! ## Rust adapter (src/rust-cli/src/languages/rust_lang.rs) -/

/-- Pre-order walk carrying the ancestor stack (nearest first): the
denotation of `walk_nodes` plus the `parent()` chain the visitor closures
climb. -/
def walkCtx (anc : List TSNode) (n : TSNode) : List (TSNode × List TSNode) :=
  (n, anc) :: n.children.attach.flatMap (fun c => walkCtx (n :: anc) c.1)
termination_by sizeOf n
decreasing_by
  have h := List.sizeOf_lt_of_mem c.2
  cases n with
  | mk k t nm f sr er cs => simp [TSNode.children] at h ⊢; omega

/-- `has_pub_visibility`: the first `visibility_modifier` child whose text
contains `pub`. -/
def hasPubVisibility (n : TSNode) : Bool :=
  match n.children.find? (fun c => c.kind = "visibility_modifier") with
  | some c => strContains c.text "pub"
  | none => false

/-- `is_inside_impl` over the ancestor stack. -/
def isInsideImpl (anc : List TSNode) : Bool :=
  anc.any (fun a => a.kind = "impl_item")

/-- `get_impl_type` over the ancestor stack: the `type` field text of the
nearest `impl_item` ancestor. -/
def getImplType (anc : List TSNode) : Option String :=
  match anc.find? (fun a => a.kind = "impl_item") with
  | some n => (childByField n "type").map (fun t => t.text)
  | none => none

/-- The node-kind → export-kind table of `RustAdapter::extract_exports`. -/
def rustExportKind (kind : String) : Option String :=
  if kind = "function_item" then some "function"
  else if kind = "struct_item" then some "struct"
  else if kind = "enum_item" then some "enum"
  else if kind = "trait_item" then some "trait"
  else if kind = "type_item" then some "type"
  else if kind = "mod_item" then some "module"
  else none

/-- The visitor body of `RustAdapter::extract_exports` for one visited node. -/
def rustExportOf (p : TSNode × List TSNode) : Option ExportInfo :=
  if hasPubVisibility p.1 = false then none
  else if isInsideImpl p.2 = true then none
  else
    match rustExportKind p.1.kind with
    | none => none
    | some kind => (childByField p.1 "name").map (fun n => ⟨n.text, kind⟩)

/-- `RustAdapter::extract_exports`. -/
def rustExtractExports (root : TSNode) : List ExportInfo :=
  (walkCtx [] root).filterMap rustExportOf

/-- `extract_rust_params`. -/
def extractRustParams (paramsNode : TSNode) : List String :=
  paramsNode.children.filterMap (fun c =>
    if c.kind = "parameter" then (childByField c "pattern").map (fun p => p.text)
    else if c.kind = "self_parameter" ∨ c.kind = "variadic_parameter" then some c.text
    else none)

/-- The visitor body of `RustAdapter::extract_functions` for one visited
node: a `function_item` with a name, rendered `Type::name` inside an `impl`. -/
def rustFunctionOf (p : TSNode × List TSNode) : Option LangFunctionInfo :=
  if p.1.kind ≠ "function_item" then none
  else
    match childByField p.1 "name" with
    | none => none
    | some nameNode =>
      let name :=
        match getImplType p.2 with
        | some t => t ++ "::" ++ nameNode.text
        | none => nameNode.text
      let params :=
        match childByField p.1 "parameters" with
        | some pn => extractRustParams pn
        | none => []
      some ⟨name, p.1.startRow + 1, p.1.endRow + 1, params, hasPubVisibility p.1⟩

/-- `RustAdapter::extract_functions`. -/
def rustExtractFunctions (root : TSNode) : List LangFunctionInfo :=
  (walkCtx [] root).filterMap rustFunctionOf

/-! ## Generic fold and filter lemmas -/

theorem foldl_preserves {α β : Type} {P : β → Prop} (step : β → α → β) (l : List α)
    (init : β) (h0 : P init) (hstep : ∀ s x, x ∈ l → P s → P (step s x)) :
    P (l.foldl step init) := by
  induction l generalizing init with
  | nil => exact h0
  | cons x t ih =>
    exact ih (step init x) (hstep init x (List.mem_cons_self _ _) h0)
      (fun s y hy => hstep s y (List.mem_cons_of_mem _ hy))

theorem lookupA_filter_of_lookupA {α : Type} {l : List (String × α)} {P : String × α → Bool}
    {k : String} {v : α} (h : lookupA l k = some v) (hP : P (k, v) = true) :
    lookupA (l.filter P) k = some v := by
  induction l with
  | nil => simp [lookupA] at h
  | cons p t ih =>
    by_cases hPp : P p = true
    · have hf : (p :: t).filter P = p :: t.filter P := by simp [List.filter_cons, hPp]
      rw [hf]
      by_cases hp : p.1 = k
      · simp [lookupA, hp] at h ⊢
        exact h
      · simp [lookupA, hp] at h ⊢
        exact ih h
    · have hf : (p :: t).filter P = t.filter P := by simp [List.filter_cons, hPp]
      rw [hf]
      by_cases hp : p.1 = k
      · exfalso
        have h2 : p.2 = v := by simpa [lookupA, hp] using h
        apply hPp
        have hkv : (k, v) = p := by
          obtain ⟨p1, p2⟩ := p
          simp at hp h2
          simp [hp, h2]
        rw [← hkv]
        exact hP
      · have h2 : lookupA t k = some v := by simpa [lookupA, hp] using h
        exact ih h2

theorem lookupA_filter_pred {α : Type} {l : List (String × α)} {P : String × α → Bool}
    {k : String} {v : α} (h : lookupA (l.filter P) k = some v) : P (k, v) = true := by
  have hm := lookupA_mem h
  exact (List.mem_filter.mp hm).2

theorem lookupA_mapVal {α β : Type} (f : String → α → β) (l : List (String × α)) (k : String) :
    lookupA (l.map (fun me => (me.1, f me.1 me.2))) k = (lookupA l k).map (f k) := by
  induction l with
  | nil => simp [lookupA]
  | cons p t ih =>
    by_cases hp : p.1 = k
    · subst hp; simp [lookupA, ih]
    · simp [lookupA, hp, ih]

theorem keysA_modifyA {α : Type} (l : List (String × α)) (k : String) (f : α → α) :
    keysA (modifyA l k f) = keysA l := by
  induction l with
  | nil => rfl
  | cons p t ih =>
    show ((if p.1 = k then (k, f p.2) else p).1 :: keysA (modifyA t k f)) = p.1 :: keysA t
    by_cases hp : p.1 = k
    · rw [if_pos hp, ih]
      simp [hp]
    · rw [if_neg hp, ih]

theorem mem_keysA_insertA {α : Type} (l : List (String × α)) (k k' : String) (v : α) :
    k' ∈ keysA (insertA l k v) ↔ k' ∈ keysA l ∨ k' = k := by
  rw [← lookupA_isSome, ← lookupA_isSome]
  by_cases h : k = k'
  · subst h; simp [lookupA_insertA_self]
  · rw [lookupA_insertA_ne l k k' v h]
    simp [Ne.symm h]

theorem mem_keysA_entryOrInsertA {α : Type} (l : List (String × α)) (k k' : String) (v : α) :
    k' ∈ keysA (entryOrInsertA l k v) ↔ k' ∈ keysA l ∨ k' = k := by
  rw [← lookupA_isSome, ← lookupA_isSome]
  by_cases h : k = k'
  · subst h; simp [lookupA_entryOrInsertA_self]
  · rw [lookupA_entryOrInsertA_ne l k k' v h]
    simp [Ne.symm h]

/-! ## C4: detect_changed_files partitions the key union -/

theorem mem_filterMapKeys {α : Type} {l : List (String × α)} {P : String × α → Bool}
    {k : String} (hn : KeysNodup l) :
    k ∈ (l.filter P).map (·.1) ↔ ∃ v, lookupA l k = some v ∧ P (k, v) = true := by
  constructor
  · intro h
    rcases List.mem_map.mp h with ⟨pv, hmem, hk⟩
    obtain ⟨k', v⟩ := pv
    rcases List.mem_filter.mp hmem with ⟨hml, hP⟩
    subst hk
    exact ⟨v, mem_lookupA hn hml, hP⟩
  · rintro ⟨v, hl, hP⟩
    exact List.mem_map.mpr ⟨(k, v), List.mem_filter.mpr ⟨lookupA_mem hl, hP⟩, rfl⟩

/-- C4: `detect_changed_files` returns four lexicographically sorted
sequences — `added` (keys in new only), `modified` (keys in both with
differing hashes), `removed` (keys in old only), `unchanged` (keys in both
with equal hashes) — that are pairwise disjoint and whose union is the union
of the two key sets. -/
theorem detectChangedFiles_partition
    (oldH newH : List (String × String)) (hOld : KeysNodup oldH) (hNew : KeysNodup newH) :
    ((detectChangedFiles oldH newH).added.Sorted StrLeR ∧
     (detectChangedFiles oldH newH).modified.Sorted StrLeR ∧
     (detectChangedFiles oldH newH).removed.Sorted StrLeR ∧
     (detectChangedFiles oldH newH).unchanged.Sorted StrLeR) ∧
    (∀ k, k ∈ (detectChangedFiles oldH newH).added ↔
      k ∈ keysA newH ∧ k ∉ keysA oldH) ∧
    (∀ k, k ∈ (detectChangedFiles oldH newH).modified ↔
      ∃ ho hn, lookupA oldH k = some ho ∧ lookupA newH k = some hn ∧ ho ≠ hn) ∧
    (∀ k, k ∈ (detectChangedFiles oldH newH).removed ↔
      k ∈ keysA oldH ∧ k ∉ keysA newH) ∧
    (∀ k, k ∈ (detectChangedFiles oldH newH).unchanged ↔
      ∃ h, lookupA oldH k = some h ∧ lookupA newH k = some h) ∧
    ((detectChangedFiles oldH newH).added.Disjoint (detectChangedFiles oldH newH).modified ∧
     (detectChangedFiles oldH newH).added.Disjoint (detectChangedFiles oldH newH).removed ∧
     (detectChangedFiles oldH newH).added.Disjoint (detectChangedFiles oldH newH).unchanged ∧
     (detectChangedFiles oldH newH).modified.Disjoint (detectChangedFiles oldH newH).removed ∧
     (detectChangedFiles oldH newH).modified.Disjoint (detectChangedFiles oldH newH).unchanged ∧
     (detectChangedFiles oldH newH).removed.Disjoint (detectChangedFiles oldH newH).unchanged) ∧
    (∀ k, (k ∈ (detectChangedFiles oldH newH).added ∨
           k ∈ (detectChangedFiles oldH newH).modified ∨
           k ∈ (detectChangedFiles oldH newH).removed ∨
           k ∈ (detectChangedFiles oldH newH).unchanged) ↔
      (k ∈ keysA oldH ∨ k ∈ keysA newH)) := by
  have hA : ∀ k, k ∈ (detectChangedFiles oldH newH).added ↔
      k ∈ keysA newH ∧ k ∉ keysA oldH := by
    intro k
    show k ∈ sortStrings _ ↔ _
    rw [mem_sortStrings, mem_filterMapKeys hNew]
    constructor
    · rintro ⟨v, hv, hP⟩
      refine ⟨lookupA_isSome.mp (by simp [hv]), ?_⟩
      rw [← lookupA_eq_none]
      simpa using hP
    · rintro ⟨hkn, hko⟩
      rcases Option.isSome_iff_exists.mp (lookupA_isSome.mpr hkn) with ⟨v, hv⟩
      exact ⟨v, hv, by simp [lookupA_eq_none.mpr hko]⟩
  have hM : ∀ k, k ∈ (detectChangedFiles oldH newH).modified ↔
      ∃ ho hn, lookupA oldH k = some ho ∧ lookupA newH k = some hn ∧ ho ≠ hn := by
    intro k
    show k ∈ sortStrings _ ↔ _
    rw [mem_sortStrings, mem_filterMapKeys hNew]
    constructor
    · rintro ⟨v, hv, hP⟩
      rcases ho : lookupA oldH k with _ | w
      · rw [ho] at hP; simp at hP
      · rw [ho] at hP
        exact ⟨w, v, rfl, hv, by simpa using hP⟩
    · rintro ⟨ho, hn, hho, hhn, hne⟩
      exact ⟨hn, hhn, by simp [hho, hne]⟩
  have hR : ∀ k, k ∈ (detectChangedFiles oldH newH).removed ↔
      k ∈ keysA oldH ∧ k ∉ keysA newH := by
    intro k
    show k ∈ sortStrings _ ↔ _
    rw [mem_sortStrings, mem_filterMapKeys hOld]
    constructor
    · rintro ⟨v, hv, hP⟩
      refine ⟨lookupA_isSome.mp (by simp [hv]), ?_⟩
      rw [← lookupA_eq_none]
      simpa using hP
    · rintro ⟨hko, hkn⟩
      rcases Option.isSome_iff_exists.mp (lookupA_isSome.mpr hko) with ⟨v, hv⟩
      exact ⟨v, hv, by simp [lookupA_eq_none.mpr hkn]⟩
  have hU : ∀ k, k ∈ (detectChangedFiles oldH newH).unchanged ↔
      ∃ h, lookupA oldH k = some h ∧ lookupA newH k = some h := by
    intro k
    show k ∈ sortStrings _ ↔ _
    rw [mem_sortStrings, mem_filterMapKeys hNew]
    constructor
    · rintro ⟨v, hv, hP⟩
      rcases ho : lookupA oldH k with _ | w
      · rw [ho] at hP; simp at hP
      · rw [ho] at hP
        have : w = v := by simpa using hP
        exact ⟨w, rfl, by rw [this]; exact hv⟩
    · rintro ⟨h, hho, hhn⟩
      exact ⟨h, hhn, by simp [hho]⟩
  refine ⟨⟨sortStrings_sorted _, sortStrings_sorted _, sortStrings_sorted _,
      sortStrings_sorted _⟩, hA, hM, hR, hU, ⟨?_, ?_, ?_, ?_, ?_, ?_⟩, ?_⟩
  · intro k hk1 hk2
    rcases (hM k).mp hk2 with ⟨ho, hn, hho, _, _⟩
    exact ((hA k).mp hk1).2 (lookupA_isSome.mp (by simp [hho]))
  · intro k hk1 hk2
    exact ((hR k).mp hk2).2 ((hA k).mp hk1).1
  · intro k hk1 hk2
    rcases (hU k).mp hk2 with ⟨h, hho, _⟩
    exact ((hA k).mp hk1).2 (lookupA_isSome.mp (by simp [hho]))
  · intro k hk1 hk2
    rcases (hM k).mp hk1 with ⟨ho, hn, _, hhn, _⟩
    exact ((hR k).mp hk2).2 (lookupA_isSome.mp (by simp [hhn]))
  · intro k hk1 hk2
    rcases (hM k).mp hk1 with ⟨ho, hn, hho, hhn, hne⟩
    rcases (hU k).mp hk2 with ⟨h, hho2, hhn2⟩
    rw [hho] at hho2
    rw [hhn] at hhn2
    exact hne ((Option.some_inj.mp hho2).trans (Option.some_inj.mp hhn2).symm)
  · intro k hk1 hk2
    rcases (hU k).mp hk2 with ⟨h, _, hhn⟩
    exact ((hR k).mp hk1).2 (lookupA_isSome.mp (by simp [hhn]))
  · intro k
    constructor
    · rintro (hk | hk | hk | hk)
      · exact Or.inr ((hA k).mp hk).1
      · rcases (hM k).mp hk with ⟨ho, hn, hho, _, _⟩
        exact Or.inl (lookupA_isSome.mp (by simp [hho]))
      · exact Or.inl ((hR k).mp hk).1
      · rcases (hU k).mp hk with ⟨h, hho, _⟩
        exact Or.inl (lookupA_isSome.mp (by simp [hho]))
    · intro hk
      by_cases hkn : k ∈ keysA newH
      · rcases Option.isSome_iff_exists.mp (lookupA_isSome.mpr hkn) with ⟨v, hv⟩
        rcases ho : lookupA oldH k with _ | w
        · exact Or.inl ((hA k).mpr ⟨hkn, lookupA_eq_none.mp ho⟩)
        · by_cases hwv : w = v
          · exact Or.inr (Or.inr (Or.inr ((hU k).mpr ⟨w, ho, by rw [hwv]; exact hv⟩)))
          · exact Or.inr (Or.inl ((hM k).mpr ⟨w, v, ho, hv, hwv⟩))
      · rcases hk with hk | hk
        · exact Or.inr (Or.inr (Or.inl ((hR k).mpr ⟨hk, hkn⟩)))
        · exact absurd hk hkn

theorem detectChangedFiles_partition_witness :
    "b.ts" ∈ (detectChangedFiles [("a.ts", "h1")] [("a.ts", "h2"), ("b.ts", "h3")]).added ∧
    "a.ts" ∈ (detectChangedFiles [("a.ts", "h1")] [("a.ts", "h2"), ("b.ts", "h3")]).modified := by
  have h := detectChangedFiles_partition [("a.ts", "h1")] [("a.ts", "h2"), ("b.ts", "h3")]
    (by decide) (by decide)
  constructor
  · exact (h.2.1 "b.ts").mpr (by decide)
  · exact (h.2.2.1 "a.ts").mpr ⟨"h1", "h2", by decide, by decide, by decide⟩

/-! ## C10: language detection is case-insensitive in the extension -/

/-- C10: `detect_language` lowercases the extension before matching, so two
paths whose extensions agree up to case detect the same language (and `.TS`,
`.ts`, `.PY` behave as expected); the same lowercasing governs
`has_cpp_source_files` and the `.h` reclassification of
`effective_language`. -/
theorem detectLanguage_case_insensitive :
    (∀ p q : String,
      (pathExtension p).map asciiLower = (pathExtension q).map asciiLower →
      detectLanguage p = detectLanguage q) ∧
    (∀ l₁ l₂ : List String,
      List.Forall₂ (fun a b =>
        (pathExtension a).map asciiLower = (pathExtension b).map asciiLower) l₁ l₂ →
      hasCppSourceFiles l₁ = hasCppSourceFiles l₂) ∧
    (∀ (p q : String) (base : Lang) (hasCpp : Bool),
      (pathExtension p).map asciiLower = (pathExtension q).map asciiLower →
      effectiveLanguage p base hasCpp = effectiveLanguage q base hasCpp) ∧
    detectLanguage "foo.TS" = some Lang.typescript ∧
    detectLanguage "foo.ts" = some Lang.typescript ∧
    detectLanguage "pkg/mod.PY" = some Lang.python := by
  have hdet : ∀ p q : String,
      (pathExtension p).map asciiLower = (pathExtension q).map asciiLower →
      detectLanguage p = detectLanguage q := by
    intro p q h
    unfold detectLanguage
    rcases hp : pathExtension p with _ | ep
    · rcases hq : pathExtension q with _ | eq2
      · simp
      · rw [hp, hq] at h
        simp at h
    · rcases hq : pathExtension q with _ | eq2
      · rw [hp, hq] at h
        simp at h
      · rw [hp, hq] at h
        simp at h ⊢
        rw [h]
  refine ⟨hdet, ?_, ?_, by decide, by decide, by decide⟩
  · intro l₁ l₂ hfa
    induction hfa with
    | nil => rfl
    | @cons a b t₁ t₂ hhd htl ih =>
      show (hasCppSourceFiles (a :: t₁)) = (hasCppSourceFiles (b :: t₂))
      unfold hasCppSourceFiles at ih ⊢
      simp only [List.any_cons]
      rw [ih]
      congr 1
      rcases hp : pathExtension a with _ | ea
      · rcases hq : pathExtension b with _ | eb
        · simp
        · rw [hp, hq] at hhd
          simp at hhd
      · rcases hq : pathExtension b with _ | eb
        · rw [hp, hq] at hhd
          simp at hhd
        · rw [hp, hq] at hhd
          simp at hhd ⊢
          rw [hhd]
  · intro p q base hasCpp h
    unfold effectiveLanguage
    rw [h]

theorem detectLanguage_case_insensitive_witness :
    detectLanguage "a.TS" = detectLanguage "b.ts" ∧
    hasCppSourceFiles ["x.CPP"] = hasCppSourceFiles ["y.cpp"] ∧
    effectiveLanguage "z.H" Lang.c true = effectiveLanguage "z.h" Lang.c true := by
  refine ⟨detectLanguage_case_insensitive.1 "a.TS" "b.ts" (by decide),
          detectLanguage_case_insensitive.2.1 ["x.CPP"] ["y.cpp"] ?_,
          detectLanguage_case_insensitive.2.2.1 "z.H" "z.h" Lang.c true (by decide)⟩
  exact List.Forall₂.cons (by decide) List.Forall₂.nil

/-! ## BFS unfolding and invariant lemmas (impact analyzer) -/

theorem bfsLoop_nil (modules : List (String × ModuleEntry)) (maxDepth : Nat)
    (visited result : List String) :
    bfsLoop modules maxDepth visited [] result = result := by
  simp [bfsLoop]

theorem bfsLoop_gate (modules : List (String × ModuleEntry)) (maxDepth : Nat)
    (visited : List String) (cur : String) (depth : Nat) (rest : List (String × Nat))
    (result : List String) (h : maxDepth ≤ depth) :
    bfsLoop modules maxDepth visited ((cur, depth) :: rest) result =
      bfsLoop modules maxDepth visited rest result := by
  rw [bfsLoop]
  simp [h]

theorem bfsLoop_missing (modules : List (String × ModuleEntry)) (maxDepth : Nat)
    (visited : List String) (cur : String) (depth : Nat) (rest : List (String × Nat))
    (result : List String) (h : ¬ maxDepth ≤ depth) (hc : lookupA modules cur = none) :
    bfsLoop modules maxDepth visited ((cur, depth) :: rest) result =
      bfsLoop modules maxDepth visited rest result := by
  rw [bfsLoop, if_neg h]
  split
  · rfl
  · rename_i me hme
    rw [hc] at hme
    exact absurd hme (by simp)

theorem bfsLoop_step (modules : List (String × ModuleEntry)) (maxDepth : Nat)
    (visited : List String) (cur : String) (depth : Nat) (rest : List (String × Nat))
    (result : List String) (me : ModuleEntry)
    (h : ¬ maxDepth ≤ depth) (hc : lookupA modules cur = some me) :
    bfsLoop modules maxDepth visited ((cur, depth) :: rest) result =
      bfsLoop modules maxDepth (bfsScanDeps me.dependedBy visited).1
        (rest ++ (bfsScanDeps me.dependedBy visited).2.map (fun d => (d, depth + 1)))
        (result ++ (bfsScanDeps me.dependedBy visited).2) := by
  rw [bfsLoop, if_neg h]
  split
  · rename_i hme
    rw [hc] at hme
    exact absurd hme (by simp)
  · rename_i me2 hme
    rw [hc] at hme
    have : me2 = me := by injection hme with h2; exact h2.symm
    subst this
    rfl

theorem bfsLoop_zero (modules : List (String × ModuleEntry)) :
    ∀ (queue : List (String × Nat)) (visited result : List String),
      bfsLoop modules 0 visited queue result = result := by
  intro queue
  induction queue with
  | nil => exact fun v r => bfsLoop_nil modules 0 v r
  | cons q rest ih =>
    intro v r
    obtain ⟨cur, depth⟩ := q
    rw [bfsLoop_gate modules 0 v cur depth rest r (Nat.zero_le depth)]
    exact ih v r

theorem bfsLoop_not_mem (modules : List (String × ModuleEntry)) (maxDepth : Nat)
    (s : String) :
    ∀ visited queue result, s ∈ visited → s ∉ result →
      s ∉ bfsLoop modules maxDepth visited queue result := by
  intro visited queue result
  induction visited, queue, result using bfsLoop.induct modules maxDepth with
  | case1 visited result =>
    intro _ hr
    rw [bfsLoop_nil]
    exact hr
  | case2 visited cur depth rest result hd ih =>
    intro hv hr
    rw [bfsLoop_gate modules maxDepth visited cur depth rest result hd]
    exact ih hv hr
  | case3 visited cur depth rest result hd hc ih =>
    intro hv hr
    rw [bfsLoop_missing modules maxDepth visited cur depth rest result hd hc]
    exact ih hv hr
  | case4 visited cur depth rest result hd me hc scanned ih =>
    intro hv hr
    rw [bfsLoop_step modules maxDepth visited cur depth rest result me hd hc]
    rcases bfsScanDeps_spec me.dependedBy visited with ⟨added, heq, hmem, hnd⟩
    have hsnot : s ∉ added := fun hs => (hmem s hs).2 hv
    apply ih
    · have h1 : scanned.1 = visited ++ added := by
        show (bfsScanDeps me.dependedBy visited).1 = visited ++ added
        rw [heq]
      rw [h1]
      exact List.mem_append_left _ hv
    · have h2 : scanned.2 = added := by
        show (bfsScanDeps me.dependedBy visited).2 = added
        rw [heq]
      rw [h2]
      intro hmem2
      rcases List.mem_append.mp hmem2 with h1 | h1
      · exact hr h1
      · exact hsnot h1

/-! ## C5: BFS start exclusion, depth gating, and maxDepth = 0 -/

/-- C5: the starting module is placed in the visited set but never appears in
`transitiveDependants`; a node dequeued at depth at or beyond `maxDepth`
contributes none of its neighbours (its queue entry is consumed with no
effect); and `maxDepth = 0` makes `transitiveDependants` empty for every
graph and target. -/
theorem bfs_start_and_depth_gate :
    (∀ (modules : List (String × ModuleEntry)) (start : String) (maxDepth : Nat),
      start ∉ bfsDependants modules start maxDepth) ∧
    (∀ (modules : List (String × ModuleEntry)) (maxDepth : Nat) (visited : List String)
       (cur : String) (depth : Nat) (rest : List (String × Nat)) (result : List String),
      maxDepth ≤ depth →
      bfsLoop modules maxDepth visited ((cur, depth) :: rest) result =
        bfsLoop modules maxDepth visited rest result) ∧
    (∀ (g : CodeGraph) (target : String),
      (analyzeImpact g target 0).transitiveDependants = []) := by
  refine ⟨?_, ?_, ?_⟩
  · intro modules start maxDepth hmem
    exact bfsLoop_not_mem modules maxDepth start [start] [(start, 0)] []
      (List.mem_singleton.mpr rfl) (List.not_mem_nil start)
      (mem_sortStrings.mp hmem)
  · intro modules maxDepth visited cur depth rest result h
    exact bfsLoop_gate modules maxDepth visited cur depth rest result h
  · intro g target
    show bfsDependants g.modules (resolveTarget g target).2 0 = []
    rw [bfsDependants, bfsLoop_zero]
    rfl

theorem bfs_start_and_depth_gate_witness :
    bfsLoop [] 2 ["m"] [("m", 5)] [] = bfsLoop [] 2 ["m"] [] [] ∧
    "core" ∉ bfsDependants [] "core" 3 :=
  ⟨bfs_start_and_depth_gate.2.1 [] 2 ["m"] "m" 5 [] [] (by decide),
   bfs_start_and_depth_gate.1 [] "core" 3⟩

/-! ## C3: analyze_impact on an unmatched target -/

/-- A minimal concrete graph (no modules, no files) for the C3 refutation. -/
def c3Graph : CodeGraph := createEmptyGraph "t" "/t" "2026-01-01T00:00:00.000Z"

/-- C3 counterexample: on a target matching nothing, `impactedModules` is the
singleton `[target]` (the code always seeds it with the resolved target), so
the claim that all four sequences are empty is false. -/
theorem analyzeImpact_noMatch_counterexample :
    lookupA c3Graph.modules "x" = none ∧
    lookupA c3Graph.files "x" = none ∧
    (keysA c3Graph.files).find? (fun f => strContains f "x") = none ∧
    (analyzeImpact c3Graph "x" 3).impactedModules = ["x"] ∧
    (analyzeImpact c3Graph "x" 3).impactedModules ≠ [] := by
  have htrans : bfsDependants c3Graph.modules "x" 3 = [] := by
    rw [bfsDependants,
      bfsLoop_missing c3Graph.modules 3 ["x"] "x" 0 [] [] (by omega) rfl,
      bfsLoop_nil]
    rfl
  have him : (analyzeImpact c3Graph "x" 3).impactedModules =
      "x" :: bfsDependants c3Graph.modules "x" 3 := rfl
  refine ⟨rfl, rfl, rfl, ?_, ?_⟩
  · rw [him, htrans]
  · rw [him, htrans]
    exact List.cons_ne_nil _ _

/-- C3 as amended: when the target matches no module key, no exact file
relPath and no file relPath by substring, the result carries the raw target
string as `targetModule`, the module target type, empty `directDependants`,
`transitiveDependants` and `impactedFiles` — but `impactedModules` is the
singleton `[target]`, not empty. -/
theorem analyzeImpact_noMatch (g : CodeGraph) (target : String) (maxDepth : Nat)
    (hm : lookupA g.modules target = none)
    (hf : lookupA g.files target = none)
    (hs : (keysA g.files).find? (fun f => strContains f target) = none) :
    analyzeImpact g target maxDepth =
      ⟨TargetType.module, target, [], [], [target], []⟩ := by
  have hrt : resolveTarget g target = (TargetType.module, target) := by
    unfold resolveTarget
    rw [hm, hf, hs]
    simp
  have htrans : bfsDependants g.modules target maxDepth = [] := by
    rcases Nat.eq_zero_or_pos maxDepth with h0 | hpos
    · subst h0
      rw [bfsDependants, bfsLoop_zero]
      rfl
    · rw [bfsDependants,
        bfsLoop_missing g.modules maxDepth [target] target 0 [] [] (by omega) hm,
        bfsLoop_nil]
      rfl
  have hAll : analyzeImpact g target maxDepth =
      ⟨TargetType.module, target,
        (match lookupA g.modules target with | some m => m.dependedBy | none => []),
        bfsDependants g.modules target maxDepth,
        target :: bfsDependants g.modules target maxDepth,
        sortStrings ((List.map (fun m => m.files)
          (List.filterMap (fun m => lookupA g.modules m)
            (target :: bfsDependants g.modules target maxDepth))).flatten)⟩ := by
    unfold analyzeImpact
    rw [hrt]
  rw [hAll, htrans, hm]
  show (⟨TargetType.module, target, [], [], [target], _⟩ : ImpactResult) = _
  simp [hm, sortStrings]

theorem analyzeImpact_noMatch_witness :
    analyzeImpact (createEmptyGraph "w" "/w" "t") "missing" 2 =
      ⟨TargetType.module, "missing", [], [], ["missing"], []⟩ :=
  analyzeImpact_noMatch (createEmptyGraph "w" "/w" "t") "missing" 2 rfl rfl rfl

/-! ## C2: substring target resolution is not lexicographic-first -/

/-- The C2 claim exactly as the spec states it (spec-side definition, for
refutation): when the target is neither a module key nor an exact file
relPath, `analyze_impact` resolves it to the lexicographically first file
relPath containing the target, and any two iteration orders of the same
files map yield the same `targetModule`. -/
def ResolveLexFirstClaim : Prop :=
  (∀ (g : CodeGraph) (target : String) (maxDepth : Nat) (m : String) (fe : FileEntry),
    lookupA g.modules target = none →
    lookupA g.files target = none →
    m ∈ keysA g.files →
    strContains m target = true →
    (∀ k ∈ keysA g.files, strContains k target = true → StrLeR m k) →
    lookupA g.files m = some fe →
    (analyzeImpact g target maxDepth).targetModule = fe.module) ∧
  (∀ (g₁ g₂ : CodeGraph) (target : String) (maxDepth : Nat),
    g₁.modules = g₂.modules →
    (∀ k, lookupA g₁.files k = lookupA g₂.files k) →
    (∀ k, k ∈ keysA g₁.files ↔ k ∈ keysA g₂.files) →
    (analyzeImpact g₁ target maxDepth).targetModule =
      (analyzeImpact g₂ target maxDepth).targetModule)

/-- A file entry with the given module, as in the differ test fixtures. -/
def c2FileEntry (m : String) : FileEntry :=
  ⟨"typescript", m, "sha256:aabbccdd11223344", 10, [], [], [], [], [], false⟩

/-- A graph whose files map iterates "src/bx.ts" before the
lexicographically smaller "src/ax.ts". -/
def c2Graph : CodeGraph :=
  { createEmptyGraph "t" "/t" "2026-01-01T00:00:00.000Z" with
      files := [("src/bx.ts", c2FileEntry "mb"), ("src/ax.ts", c2FileEntry "ma")] }

/-- C2 counterexample: `resolve_target` iterates `HashMap::keys`, not a
sorted view; with iteration order placing "src/bx.ts" first, target "x"
resolves to module "mb" although the lexicographically first match
"src/ax.ts" belongs to module "ma". -/
theorem resolveLexFirst_counterexample : ¬ ResolveLexFirstClaim := by
  intro h
  have h1 := h.1 c2Graph "x" 3 "src/ax.ts" (c2FileEntry "ma") rfl rfl
    (by decide) (by decide) (by decide) (by decide)
  have h2 : (analyzeImpact c2Graph "x" 3).targetModule = "mb" := rfl
  rw [h2] at h1
  exact absurd h1 (by decide)

/-- C2 as amended: the substring fallback resolves to the first file relPath
in the files map's iteration order that contains the target; the result is a
function of that iteration order (not of the key set alone), and nothing
sorts the keys first. -/
theorem resolveTarget_first_match (g : CodeGraph) (target : String) (maxDepth : Nat)
    (m : String) (fe : FileEntry)
    (hm : lookupA g.modules target = none)
    (hf : lookupA g.files target = none)
    (hfind : (keysA g.files).find? (fun f => strContains f target) = some m)
    (hl : lookupA g.files m = some fe) :
    (analyzeImpact g target maxDepth).targetType = TargetType.file ∧
    (analyzeImpact g target maxDepth).targetModule = fe.module := by
  have hrt : resolveTarget g target = (TargetType.file, fe.module) := by
    unfold resolveTarget
    rw [hm, hf, hfind]
    simp [hl]
  constructor
  · show (resolveTarget g target).1 = _
    rw [hrt]
  · show (resolveTarget g target).2 = _
    rw [hrt]

theorem resolveTarget_first_match_witness :
    (analyzeImpact c2Graph "x" 3).targetType = TargetType.file ∧
    (analyzeImpact c2Graph "x" 3).targetModule = "mb" :=
  resolveTarget_first_match c2Graph "x" 3 "src/bx.ts" (c2FileEntry "mb") rfl rfl
    (by decide) (by decide)

/-! ## C8: update with an unchanged disk state performs no writes -/

/-- C8: when every on-disk hash equals the previously recorded hash, the
changeset is empty and `update::run` returns early — no document is written
(empty write list), `merge_graph_update` is never reached and the loaded
graph is returned untouched (in particular `scannedAt` is not refreshed). -/
theorem updateRun_empty_changeset (g : CodeGraph) (oldH newH : List (String × String))
    (pe : String → Option FileEntry) (now : String)
    (hNew : KeysNodup newH)
    (hsame : ∀ k, lookupA oldH k = lookupA newH k) :
    (detectChangedFiles oldH newH).isEmptyCS = true ∧
    updateRun g oldH newH pe now = ⟨detectChangedFiles oldH newH, g, []⟩ := by
  have hadd : (detectChangedFiles oldH newH).added = [] := by
    show sortStrings ((newH.filter (fun pk => (lookupA oldH pk.1).isNone)).map (·.1)) = []
    have hnil : newH.filter (fun pk => (lookupA oldH pk.1).isNone) = [] := by
      rw [List.filter_eq_nil_iff]
      intro pk hpk
      have hlk : lookupA newH pk.1 = some pk.2 := mem_lookupA hNew hpk
      simp [hsame pk.1, hlk]
    rw [hnil]
    rfl
  have hmod : (detectChangedFiles oldH newH).modified = [] := by
    show sortStrings ((newH.filter (fun pk =>
      match lookupA oldH pk.1 with
      | some oldh => decide (oldh ≠ pk.2)
      | none => false)).map (·.1)) = []
    have hnil : newH.filter (fun pk =>
        match lookupA oldH pk.1 with
        | some oldh => decide (oldh ≠ pk.2)
        | none => false) = [] := by
      rw [List.filter_eq_nil_iff]
      intro pk hpk
      have hlk : lookupA newH pk.1 = some pk.2 := mem_lookupA hNew hpk
      simp [hsame pk.1, hlk]
    rw [hnil]
    rfl
  have hrem : (detectChangedFiles oldH newH).removed = [] := by
    show sortStrings ((oldH.filter (fun pk => (lookupA newH pk.1).isNone)).map (·.1)) = []
    have hnil : oldH.filter (fun pk => (lookupA newH pk.1).isNone) = [] := by
      rw [List.filter_eq_nil_iff]
      intro pk hpk
      have hk : pk.1 ∈ keysA oldH := List.mem_map_of_mem _ hpk
      have hsome := lookupA_isSome.mpr hk
      rw [hsame pk.1] at hsome
      simp [Option.isSome_iff_exists.mp hsome]
      rcases Option.isSome_iff_exists.mp hsome with ⟨v, hv⟩
      simp [hv]
    rw [hnil]
    rfl
  have hemp : (detectChangedFiles oldH newH).isEmptyCS = true := by
    unfold ChangeSet.isEmptyCS
    rw [hadd, hmod, hrem]
    rfl
  refine ⟨hemp, ?_⟩
  unfold updateRun
  simp [hemp]

theorem updateRun_empty_changeset_witness :
    updateRun (createEmptyGraph "w" "/w" "t0") [("a.ts", "h1")] [("a.ts", "h1")]
        (fun _ => none) "t1" =
      ⟨detectChangedFiles [("a.ts", "h1")] [("a.ts", "h1")],
       createEmptyGraph "w" "/w" "t0", []⟩ :=
  (updateRun_empty_changeset (createEmptyGraph "w" "/w" "t0")
    [("a.ts", "h1")] [("a.ts", "h1")] (fun _ => none) "t1"
    (by decide) (fun _ => rfl)).2

/-! ## C9: merge_graph_update touches only the named file entries -/

theorem mergeRemoveFile_files_ne (g : CodeGraph) (q p : String) (h : q ≠ p) :
    lookupA (mergeRemoveFile g q).files p = lookupA g.files p := by
  unfold mergeRemoveFile
  rcases he : lookupA g.files q with _ | fd
  · rfl
  · exact lookupA_eraseA_ne g.files q p h

theorem mergeRemove_fold_files (removed : List String) :
    ∀ (g : CodeGraph) (p : String), p ∉ removed →
      lookupA (removed.foldl mergeRemoveFile g).files p = lookupA g.files p := by
  induction removed with
  | nil => intro g p _; rfl
  | cons q t ih =>
    intro g p hp
    have hqp : q ≠ p := fun hc => hp (hc ▸ List.mem_cons_self q t)
    rw [List.foldl_cons, ih (mergeRemoveFile g q) p (fun hm => hp (List.mem_cons_of_mem _ hm)),
      mergeRemoveFile_files_ne g q p hqp]

theorem mergeAddFile_files_eq (g : CodeGraph) (pf : String × FileEntry) :
    (mergeAddFile g pf).files = insertA g.files pf.1 pf.2 := by
  unfold mergeAddFile
  split
  · split
    · rfl
    · rfl
  · rfl

theorem mergeAdd_fold_files (updated : List (String × FileEntry)) :
    ∀ (g : CodeGraph) (p : String), p ∉ keysA updated →
      lookupA (updated.foldl mergeAddFile g).files p = lookupA g.files p := by
  induction updated with
  | nil => intro g p _; rfl
  | cons pf t ih =>
    intro g p hp
    have hne : pf.1 ≠ p := by
      intro hc
      apply hp
      show p ∈ pf.1 :: keysA t
      rw [← hc]
      exact List.mem_cons_self _ _
    have ht : p ∉ keysA t := fun hm => hp (List.mem_cons_of_mem _ hm)
    rw [List.foldl_cons, ih (mergeAddFile g pf) p ht, mergeAddFile_files_eq,
      lookupA_insertA_ne g.files pf.1 p pf.2 hne]

/-- Equality of the four top-level graph fields `merge_graph_update` never
writes. -/
def SameTop (g g2 : CodeGraph) : Prop :=
  g2.version = g.version ∧ g2.project = g.project ∧
  g2.scannedAt = g.scannedAt ∧ g2.commitHash = g.commitHash

theorem sameTop_rfl (g : CodeGraph) : SameTop g g := ⟨rfl, rfl, rfl, rfl⟩

theorem sameTop_trans {g1 g2 g3 : CodeGraph} (h1 : SameTop g1 g2) (h2 : SameTop g2 g3) :
    SameTop g1 g3 :=
  ⟨h2.1.trans h1.1, h2.2.1.trans h1.2.1, h2.2.2.1.trans h1.2.2.1, h2.2.2.2.trans h1.2.2.2⟩

theorem mergeRemoveFile_top (g : CodeGraph) (q : String) : SameTop g (mergeRemoveFile g q) := by
  unfold mergeRemoveFile
  rcases he : lookupA g.files q with _ | fd
  · exact sameTop_rfl g
  · exact ⟨rfl, rfl, rfl, rfl⟩

theorem mergeAddFile_top (g : CodeGraph) (pf : String × FileEntry) :
    SameTop g (mergeAddFile g pf) := by
  unfold mergeAddFile
  split
  · split
    · exact ⟨rfl, rfl, rfl, rfl⟩
    · exact ⟨rfl, rfl, rfl, rfl⟩
  · exact ⟨rfl, rfl, rfl, rfl⟩

/-- C9: a relPath named neither in `updated_files` nor in `removed_files`
keeps an identical `FileEntry` across `merge_graph_update` (same language,
module, hash, lines and fact lists), and the graph's `version`, `project`,
`scannedAt` and `commitHash` fields are unchanged. -/
theorem mergeGraphUpdate_frame :
    (∀ (g : CodeGraph) (updated : List (String × FileEntry)) (removed : List String)
        (p : String), p ∉ keysA updated → p ∉ removed →
      lookupA (mergeGraphUpdate g updated removed).files p = lookupA g.files p) ∧
    (∀ (g : CodeGraph) (updated : List (String × FileEntry)) (removed : List String),
      SameTop g (mergeGraphUpdate g updated removed)) := by
  constructor
  · intro g updated removed p hu hr
    show lookupA (updated.foldl mergeAddFile (removed.foldl mergeRemoveFile g)).files p =
      lookupA g.files p
    rw [mergeAdd_fold_files updated _ p hu, mergeRemove_fold_files removed g p hr]
  · intro g updated removed
    have h1 : SameTop g (removed.foldl mergeRemoveFile g) := by
      apply foldl_preserves (P := fun x => SameTop g x)
      · exact sameTop_rfl g
      · intro s q _ hs
        exact sameTop_trans hs (mergeRemoveFile_top s q)
    have h2 : SameTop g (updated.foldl mergeAddFile (removed.foldl mergeRemoveFile g)) := by
      apply foldl_preserves (P := fun x => SameTop g x)
      · exact h1
      · intro s pf _ hs
        exact sameTop_trans hs (mergeAddFile_top s pf)
    exact sameTop_trans h2 ⟨rfl, rfl, rfl, rfl⟩

theorem mergeGraphUpdate_frame_witness :
    lookupA (mergeGraphUpdate
        { createEmptyGraph "w" "/w" "t0" with
            files := [("src/a.ts", c2FileEntry "a")],
            modules := [("a", ⟨["src/a.ts"], [], []⟩)] }
        [("src/b.ts", c2FileEntry "b")] ["src/c.ts"]).files "src/a.ts" =
      some (c2FileEntry "a") := by
  have h := mergeGraphUpdate_frame.1
    { createEmptyGraph "w" "/w" "t0" with
        files := [("src/a.ts", c2FileEntry "a")],
        modules := [("a", ⟨["src/a.ts"], [], []⟩)] }
    [("src/b.ts", c2FileEntry "b")] ["src/c.ts"] "src/a.ts" (by decide) (by decide)
  rw [h]
  rfl

/-! ## C6: Python __all__ list is the exclusive export list -/

theorem findSome?_append_none {α β : Type} (f : α → Option β) (pre l : List α)
    (h : ∀ x ∈ pre, f x = none) :
    (pre ++ l).findSome? f = l.findSome? f := by
  induction pre with
  | nil => rfl
  | cons a t ih =>
    rw [List.cons_append, List.findSome?_cons, h a (List.mem_cons_self _ _)]
    exact ih (fun x hx => h x (List.mem_cons_of_mem _ hx))

/-- C6: when some top-level statement assigns a list literal to `__all__`
(and no earlier statement triggers the `__all__` scan), `extract_exports`
returns exactly one `variable`-kind export per string literal of that list —
quote-stripped, in order — and nothing for any top-level def or class; an
empty list yields zero exports rather than the all-definitions fallback. -/
theorem pyExtractExports_dunder_all (root : TSNode) (pre : List TSNode) (c : TSNode)
    (post : List TSNode) (rhs : TSNode)
    (hch : root.children = pre ++ c :: post)
    (hpre : ∀ x ∈ pre, dunderHit x = none)
    (hc : dunderHit c = some rhs)
    (hlist : rhs.kind = "list") :
    pyExtractExports root =
      (rhs.children.filter (fun s => s.kind = "string")).map
        (fun s => (⟨stripQuotes s.text, "variable"⟩ : ExportInfo)) ∧
    (rhs.children.filter (fun s => s.kind = "string") = [] →
      pyExtractExports root = []) := by
  have hfind : root.children.findSome? dunderHit = some rhs := by
    rw [hch, findSome?_append_none dunderHit pre (c :: post) hpre, List.findSome?_cons, hc]
  have hdun : extractDunderAll root =
      some ((rhs.children.filter (fun s => s.kind = "string")).map
        (fun s => stripQuotes s.text)) := by
    unfold extractDunderAll
    rw [hfind]
    show extractListStrings rhs = _
    unfold extractListStrings
    rw [if_pos hlist]
  have hexp : pyExtractExports root =
      ((rhs.children.filter (fun s => s.kind = "string")).map
        (fun s => stripQuotes s.text)).map
        (fun name => (⟨name, "variable"⟩ : ExportInfo)) := by
    unfold pyExtractExports
    rw [hdun]
  constructor
  · rw [hexp, List.map_map]
    rfl
  · intro hnil
    rw [hexp, hnil]
    rfl

def c6Name : TSNode := .mk "identifier" "__all__" true (some "left") 1 1 []

def c6Str : TSNode := .mk "string" "\"foo\"" true none 1 1 []

def c6List : TSNode := .mk "list" "[\"foo\"]" true (some "right") 1 1 [c6Str]

def c6Assign : TSNode := .mk "assignment" "__all__ = [\"foo\"]" true none 1 1 [c6Name, c6List]

def c6Stmt : TSNode := .mk "expression_statement" "__all__ = [\"foo\"]" true none 1 1 [c6Assign]

def c6Root : TSNode := .mk "module" "" true none 1 2 [c6Stmt]

theorem pyExtractExports_dunder_all_witness :
    pyExtractExports c6Root = [⟨"foo", "variable"⟩] := by
  have h := (pyExtractExports_dunder_all c6Root [] c6Stmt [] c6List rfl
    (fun x hx => absurd hx (List.not_mem_nil x)) rfl rfl).1
  rw [h]
  rfl

/-! ## C7: Rust pub/impl export rule and impl method naming -/

theorem find?_append_false {α : Type} (p : α → Bool) (pre l : List α)
    (h : ∀ x ∈ pre, p x = false) :
    (pre ++ l).find? p = l.find? p := by
  induction pre with
  | nil => rfl
  | cons a t ih =>
    rw [List.cons_append, List.find?_cons_of_neg _ (by simp [h a (List.mem_cons_self _ _)])]
    exact ih (fun x hx => h x (List.mem_cons_of_mem _ hx))

theorem mem_walkCtx_self (anc : List TSNode) (n : TSNode) : (n, anc) ∈ walkCtx anc n := by
  rw [walkCtx]
  exact List.mem_cons_self _ _

theorem mem_walkCtx_child {q : TSNode × List TSNode} {n c : TSNode} {anc : List TSNode}
    (hc : c ∈ n.children) (hm : q ∈ walkCtx (n :: anc) c) : q ∈ walkCtx anc n := by
  rw [walkCtx]
  exact List.mem_cons_of_mem _
    (List.mem_flatMap.mpr ⟨⟨c, hc⟩, List.mem_attach _ _, hm⟩)

/-- C7: over the whole walk of a Rust parse tree, (1) every emitted export
comes from a node with a `pub` visibility modifier, outside every `impl`
block, of an exportable kind, named by its `name` field; (2) conversely every
such node emits its export; and (3) every named `function_item` whose nearest
`impl_item` ancestor carries type text `T` appears in `extract_functions` as
`T::name`, with no visibility requirement. -/
theorem rustExports_pub_iff :
    (∀ (root : TSNode) (e : ExportInfo), e ∈ rustExtractExports root →
      ∃ p ∈ walkCtx [] root,
        hasPubVisibility p.1 = true ∧ isInsideImpl p.2 = false ∧
        rustExportKind p.1.kind = some e.kind ∧
        ∃ nameNode, childByField p.1 "name" = some nameNode ∧ nameNode.text = e.name) ∧
    (∀ (root : TSNode) (p : TSNode × List TSNode) (k : String) (nameNode : TSNode),
      p ∈ walkCtx [] root →
      hasPubVisibility p.1 = true → isInsideImpl p.2 = false →
      rustExportKind p.1.kind = some k → childByField p.1 "name" = some nameNode →
      (⟨nameNode.text, k⟩ : ExportInfo) ∈ rustExtractExports root) ∧
    (∀ (root : TSNode) (p : TSNode × List TSNode) (nameNode implNode typeNode : TSNode)
        (pre rest : List TSNode),
      p ∈ walkCtx [] root →
      p.1.kind = "function_item" →
      childByField p.1 "name" = some nameNode →
      p.2 = pre ++ implNode :: rest →
      (∀ a ∈ pre, a.kind ≠ "impl_item") →
      implNode.kind = "impl_item" →
      childByField implNode "type" = some typeNode →
      ∃ f ∈ rustExtractFunctions root,
        f.name = typeNode.text ++ "::" ++ nameNode.text) := by
  refine ⟨?_, ?_, ?_⟩
  · intro root e he
    rcases List.mem_filterMap.mp he with ⟨p, hp, hof⟩
    refine ⟨p, hp, ?_⟩
    unfold rustExportOf at hof
    by_cases h1 : hasPubVisibility p.1 = false
    · rw [if_pos h1] at hof
      cases hof
    · rw [if_neg h1] at hof
      by_cases h2 : isInsideImpl p.2 = true
      · rw [if_pos h2] at hof
        cases hof
      · rw [if_neg h2] at hof
        rcases hk : rustExportKind p.1.kind with _ | k
        · rw [hk] at hof
          cases hof
        · rw [hk] at hof
          have hof2 : (childByField p.1 "name").map
              (fun n => (⟨n.text, k⟩ : ExportInfo)) = some e := hof
          rcases Option.map_eq_some'.mp hof2 with ⟨nameNode, hn, he2⟩
          refine ⟨by simpa using h1, by simpa using h2, ?_, nameNode, hn, ?_⟩
          · rw [← he2]
          · rw [← he2]
  · intro root p k nameNode hp hpub himp hk hn
    have hof : rustExportOf p = some ⟨nameNode.text, k⟩ := by
      unfold rustExportOf
      rw [if_neg (by simp [hpub]), if_neg (by simp [himp]), hk]
      show (childByField p.1 "name").map (fun n => (⟨n.text, k⟩ : ExportInfo)) = _
      rw [hn]
      rfl
    exact List.mem_filterMap.mpr ⟨p, hp, hof⟩
  · intro root p nameNode implNode typeNode pre rest hp hkind hn hsplit hpre himpl hty
    have hit : getImplType p.2 = some typeNode.text := by
      unfold getImplType
      rw [hsplit, find?_append_false _ pre _ (fun a ha => by simp [hpre a ha]),
        List.find?_cons_of_pos _ (by simp [himpl])]
      show (childByField implNode "type").map (fun t => t.text) = _
      rw [hty]
      rfl
    have hof : rustFunctionOf p = some ⟨typeNode.text ++ "::" ++ nameNode.text,
        p.1.startRow + 1, p.1.endRow + 1,
        (match childByField p.1 "parameters" with
         | some pn => extractRustParams pn
         | none => []), hasPubVisibility p.1⟩ := by
      unfold rustFunctionOf
      rw [if_neg (by simp [hkind]), hn]
      show some (⟨(match getImplType p.2 with
          | some t => t ++ "::" ++ nameNode.text
          | none => nameNode.text), p.1.startRow + 1, p.1.endRow + 1,
          (match childByField p.1 "parameters" with
           | some pn => extractRustParams pn
           | none => []), hasPubVisibility p.1⟩ : LangFunctionInfo) = _
      rw [hit]
    exact ⟨_, List.mem_filterMap.mpr ⟨p, hp, hof⟩, rfl⟩

def c7Vis : TSNode := .mk "visibility_modifier" "pub" false none 1 1 []

def c7SName : TSNode := .mk "type_identifier" "S" true (some "name") 1 1 []

def c7Struct : TSNode := .mk "struct_item" "pub struct S;" true none 1 1 [c7Vis, c7SName]

def c7MName : TSNode := .mk "identifier" "m" true (some "name") 3 3 []

def c7Fn : TSNode := .mk "function_item" "fn m()" true none 3 3 [c7MName]

def c7Type : TSNode := .mk "type_identifier" "S" true (some "type") 2 2 []

def c7Body : TSNode := .mk "declaration_list" "" true (some "body") 2 4 [c7Fn]

def c7Impl : TSNode := .mk "impl_item" "impl S" true none 2 4 [c7Type, c7Body]

def c7Root : TSNode := .mk "source_file" "" true none 1 4 [c7Struct, c7Impl]

theorem rustExports_pub_iff_witness :
    (⟨"S", "struct"⟩ : ExportInfo) ∈ rustExtractExports c7Root ∧
    ∃ f ∈ rustExtractFunctions c7Root, f.name = "S::m" := by
  have hstructMem : ((c7Struct, [c7Root]) : TSNode × List TSNode) ∈ walkCtx [] c7Root :=
    mem_walkCtx_child (List.mem_cons_self _ _) (mem_walkCtx_self [c7Root] c7Struct)
  have hfnMem : ((c7Fn, [c7Body, c7Impl, c7Root]) : TSNode × List TSNode) ∈
      walkCtx [] c7Root :=
    mem_walkCtx_child (List.mem_cons_of_mem _ (List.mem_cons_self _ _))
      (mem_walkCtx_child (List.mem_cons_of_mem _ (List.mem_cons_self _ _))
        (mem_walkCtx_child (List.mem_cons_self _ _)
          (mem_walkCtx_self [c7Body, c7Impl, c7Root] c7Fn)))
  constructor
  · exact rustExports_pub_iff.2.1 c7Root (c7Struct, [c7Root]) "struct" c7SName
      hstructMem (by decide) (by decide) (by decide) rfl
  · exact rustExports_pub_iff.2.2 c7Root (c7Fn, [c7Body, c7Impl, c7Root]) c7MName c7Impl
      c7Type [c7Body] [c7Root] hfnMem (by decide) rfl rfl
      (fun a ha => by rw [List.mem_singleton.mp ha]; decide) (by decide) rfl

/-! ## C1 machinery: graph invariants -/

/-- Invariant: no module entry has an empty files list. -/
def ModulesNonEmpty (g : CodeGraph) : Prop :=
  ∀ m e, lookupA g.modules m = some e → e.files ≠ []

/-- Invariant: every dependsOn edge has its dependedBy mirror. -/
def EdgeSymm (g : CodeGraph) : Prop :=
  ∀ a ea b, lookupA g.modules a = some ea → b ∈ ea.dependsOn →
    ∃ eb, lookupA g.modules b = some eb ∧ a ∈ eb.dependedBy

/-- Invariant: both edge lists are sorted, duplicate-free and self-loop-free. -/
def EdgeListsClean (g : CodeGraph) : Prop :=
  ∀ a ea, lookupA g.modules a = some ea →
    ea.dependsOn.Sorted StrLeR ∧ ea.dependsOn.Nodup ∧ a ∉ ea.dependsOn ∧
    ea.dependedBy.Sorted StrLeR ∧ ea.dependedBy.Nodup ∧ a ∉ ea.dependedBy

/-- Invariant: every file's module is a key of `modules` and the file's
relPath appears in that module's files list. -/
def FilesConsistent (g : CodeGraph) : Prop :=
  ∀ p fd, lookupA g.files p = some fd →
    ∃ e, lookupA g.modules fd.module = some e ∧ p ∈ e.files

/-- All four C1 invariants at once. -/
def GraphInv (g : CodeGraph) : Prop :=
  ModulesNonEmpty g ∧ EdgeSymm g ∧ EdgeListsClean g ∧ FilesConsistent g

/-- The pair-level (iteration-complete) form of `FilesConsistent`, taken as
the precondition of the incremental merge: it holds of every graph the
scanner produces and `merge_graph_update` preserves it. -/
def FilesModulesConsistentB (g : CodeGraph) : Prop :=
  ∀ pf ∈ g.files, ∃ e, lookupA g.modules pf.2.module = some e ∧ pf.1 ∈ e.files

instance (g : CodeGraph) (pf : String × FileEntry) :
    Decidable (∃ e, lookupA g.modules pf.2.module = some e ∧ pf.1 ∈ e.files) :=
  match lookupA g.modules pf.2.module with
  | some e =>
    if hm : pf.1 ∈ e.files then isTrue ⟨e, rfl, hm⟩
    else isFalse (fun ⟨e2, h2, hm2⟩ => by
      injection h2 with h3
      subst h3
      exact hm hm2)
  | none => isFalse (fun ⟨e2, h2, _⟩ => by cases h2)

instance (g : CodeGraph) : Decidable (FilesModulesConsistentB g) :=
  List.decidableBAll _ g.files

/-! ## C1 machinery: edge-map invariants -/

/-- Invariant over both set-valued edge maps, relative to a predicate `T`
selecting the legal edge endpoints (module-table keys): every recorded
dependency is on a legal target, is not a self-edge, is mirrored in the
reverse map, and both maps hold duplicate-free sets with no self-loops. -/
def EdgeMapsOK (T : String → Prop) (em : EdgeMaps) : Prop :=
  (∀ a, (getDA em.dependsM a []).Nodup) ∧
  (∀ a, (getDA em.dependedM a []).Nodup) ∧
  (∀ a b, b ∈ getDA em.dependsM a [] →
    T b ∧ a ≠ b ∧ a ∈ getDA em.dependedM b []) ∧
  (∀ a b, b ∈ getDA em.dependedM a [] → a ≠ b)

theorem getDA_modifyA_insertSet (l : List (String × List String)) (m t x : String) :
    getDA (modifyA l m (fun s => insertSet s t)) x [] =
      if x = m then ((lookupA l m).map (fun s => insertSet s t)).getD []
      else getDA l x [] := by
  by_cases hx : x = m
  · subst hx
    rw [if_pos rfl]
    unfold getDA
    rw [lookupA_modifyA_self]
  · rw [if_neg hx]
    unfold getDA
    rw [lookupA_modifyA_ne l m x _ (fun hc => hx hc.symm)]

theorem getDA_entryOrInsertA_self (l : List (String × List String)) (m : String) :
    getDA (entryOrInsertA l m []) m [] = getDA l m [] := by
  unfold getDA
  rw [lookupA_entryOrInsertA_self]
  rcases h : lookupA l m with _ | v <;> simp [h]

theorem getDA_entryOrInsertA_ne (l : List (String × List String)) (m x : String)
    (h : x ≠ m) : getDA (entryOrInsertA l m []) x [] = getDA l x [] := by
  unfold getDA
  rw [lookupA_entryOrInsertA_ne l m x [] (fun hc => h hc.symm)]

/-- `entry(m).or_default().insert(t)` read back at any key: always the set
with `t` inserted at `m`, untouched elsewhere. -/
theorem getDA_scanInsert (l : List (String × List String)) (m t x : String) :
    getDA (modifyA (entryOrInsertA l m []) m (fun s => insertSet s t)) x [] =
      if x = m then insertSet (getDA l m []) t else getDA l x [] := by
  rw [getDA_modifyA_insertSet]
  by_cases hx : x = m
  · rw [if_pos hx, if_pos hx, lookupA_entryOrInsertA_self]
    rcases h : lookupA l m with _ | v <;> simp [h, getDA]
  · rw [if_neg hx, if_neg hx, getDA_entryOrInsertA_ne l m x hx]

theorem mem_insertSet_iff {s : List String} {x y : String} :
    y ∈ insertSet s x ↔ y ∈ s ∨ y = x := mem_insertSet

/-- Preservation of the edge invariant by the scanner's
`entry(..).or_default().insert(..)` recording (the paired insert always
lands). -/
theorem scanRecordEdge_ok {T : String → Prop} {em : EdgeMaps} {m t : String}
    (hok : EdgeMapsOK T em) (hT : T t) (hne : t ≠ m) :
    EdgeMapsOK T (scanRecordEdge em m t) := by
  obtain ⟨hnd1, hnd2, hsym, hself⟩ := hok
  have hdep : ∀ x, getDA (scanRecordEdge em m t).dependsM x [] =
      if x = m then insertSet (getDA em.dependsM x []) t else getDA em.dependsM x [] := by
    intro x
    show getDA (modifyA (entryOrInsertA em.dependsM m []) m (fun s => insertSet s t)) x [] = _
    rw [getDA_scanInsert]
    by_cases hx : x = m
    · rw [if_pos hx, if_pos hx, hx]
    · rw [if_neg hx, if_neg hx]
  have hdby : ∀ x, getDA (scanRecordEdge em m t).dependedM x [] =
      if x = t then insertSet (getDA em.dependedM x []) m else getDA em.dependedM x [] := by
    intro x
    show getDA (modifyA (entryOrInsertA em.dependedM t []) t (fun s => insertSet s m)) x [] = _
    rw [getDA_scanInsert]
    by_cases hx : x = t
    · rw [if_pos hx, if_pos hx, hx]
    · rw [if_neg hx, if_neg hx]
  refine ⟨?_, ?_, ?_, ?_⟩
  · intro a
    rw [hdep]
    by_cases ha : a = m
    · rw [if_pos ha]
      exact insertSet_nodup (hnd1 a)
    · rw [if_neg ha]
      exact hnd1 a
  · intro a
    rw [hdby]
    by_cases ha : a = t
    · rw [if_pos ha]
      exact insertSet_nodup (hnd2 a)
    · rw [if_neg ha]
      exact hnd2 a
  · intro a b hb
    rw [hdep] at hb
    have hmir : ∀ c, c ∈ getDA em.dependedM b [] → c ∈ getDA (scanRecordEdge em m t).dependedM b [] := by
      intro c hc
      rw [hdby]
      by_cases hbt : b = t
      · rw [if_pos hbt]
        exact mem_insertSet_iff.mpr (Or.inl hc)
      · rw [if_neg hbt]
        exact hc
    by_cases ha : a = m
    · rw [if_pos ha] at hb
      rcases mem_insertSet_iff.mp hb with hb | hb
      · rcases hsym a b hb with ⟨hTb, hab, hmem⟩
        exact ⟨hTb, hab, hmir a hmem⟩
      · subst hb
        subst ha
        refine ⟨hT, fun hc => hne hc.symm, ?_⟩
        rw [hdby, if_pos rfl]
        exact mem_insertSet_iff.mpr (Or.inr rfl)
    · rw [if_neg ha] at hb
      rcases hsym a b hb with ⟨hTb, hab, hmem⟩
      exact ⟨hTb, hab, hmir a hmem⟩
  · intro a b hb
    rw [hdby] at hb
    by_cases ha : a = t
    · rw [if_pos ha] at hb
      rcases mem_insertSet_iff.mp hb with hb | hb
      · exact hself a b hb
      · subst hb
        subst ha
        exact fun hc => hne hc
    · rw [if_neg ha] at hb
      exact hself a b hb

/-- Edge invariant plus the fact that both maps are keyed exactly by the
legal endpoints (the module-table keys), as `rebuild_dependencies`
initializes them. -/
def EdgeMapsKeyed (T : String → Prop) (em : EdgeMaps) : Prop :=
  EdgeMapsOK T em ∧
  (∀ x, x ∈ keysA em.dependsM ↔ T x) ∧
  (∀ x, x ∈ keysA em.dependedM ↔ T x)

/-- Preservation of the keyed edge invariant by the differ's
`get_mut`-guarded recording. -/
theorem recordEdge_ok {T : String → Prop} {em : EdgeMaps} {m t : String}
    (hok : EdgeMapsKeyed T em) (hT : T t) (hne : t ≠ m) :
    EdgeMapsKeyed T (recordEdge em m t) := by
  obtain ⟨⟨hnd1, hnd2, hsym, hself⟩, hk1, hk2⟩ := hok
  have htSome : (lookupA em.dependedM t).isSome := by
    rw [lookupA_isSome]
    exact (hk2 t).mpr hT
  rcases hts : lookupA em.dependedM t with _ | sby
  · rw [hts] at htSome
    cases htSome
  have hdby : ∀ x, getDA (recordEdge em m t).dependedM x [] =
      if x = t then insertSet (getDA em.dependedM t []) m
      else getDA em.dependedM x [] := by
    intro x
    show getDA (modifyA em.dependedM t (fun s => insertSet s m)) x [] = _
    rw [getDA_modifyA_insertSet]
    by_cases hx : x = t
    · rw [if_pos hx, if_pos hx, hts]
      show insertSet sby m = insertSet (getDA em.dependedM t []) m
      unfold getDA
      rw [hts]
      rfl
    · rw [if_neg hx, if_neg hx]
  have hdep : ∀ x, getDA (recordEdge em m t).dependsM x [] =
      if x = m ∧ (lookupA em.dependsM m).isSome
      then insertSet (getDA em.dependsM m []) t
      else getDA em.dependsM x [] := by
    intro x
    show getDA (modifyA em.dependsM m (fun s => insertSet s t)) x [] = _
    rw [getDA_modifyA_insertSet]
    by_cases hx : x = m
    · rcases hms : lookupA em.dependsM m with _ | sm
      · rw [if_pos hx, if_neg (by simp [hms]), hx]
        unfold getDA
        rw [hms]
        rfl
      · rw [if_pos hx, if_pos ⟨hx, by simp [hms]⟩]
        unfold getDA
        rw [hms]
        rfl
    · rw [if_neg hx, if_neg (fun hc => hx hc.1)]
  have hmir : ∀ c b, c ∈ getDA em.dependedM b [] →
      c ∈ getDA (recordEdge em m t).dependedM b [] := by
    intro c b hc
    rw [hdby]
    by_cases hbt : b = t
    · rw [if_pos hbt, ← hbt]
      exact mem_insertSet_iff.mpr (Or.inl (hbt ▸ hc))
    · rw [if_neg hbt]
      exact hc
  refine ⟨⟨?_, ?_, ?_, ?_⟩, ?_, ?_⟩
  · intro a
    rw [hdep]
    by_cases ha : a = m ∧ (lookupA em.dependsM m).isSome
    · rw [if_pos ha]
      exact insertSet_nodup (hnd1 m)
    · rw [if_neg ha]
      exact hnd1 a
  · intro a
    rw [hdby]
    by_cases ha : a = t
    · rw [if_pos ha]
      exact insertSet_nodup (hnd2 t)
    · rw [if_neg ha]
      exact hnd2 a
  · intro a b hb
    rw [hdep] at hb
    by_cases ha : a = m ∧ (lookupA em.dependsM m).isSome
    · rw [if_pos ha] at hb
      rcases mem_insertSet_iff.mp hb with hb | hb
      · rcases hsym m b hb with ⟨hTb, hab, hmem⟩
        rw [ha.1]
        exact ⟨hTb, hab, hmir m b hmem⟩
      · subst hb
        rw [ha.1]
        refine ⟨hT, fun hc => hne hc.symm, ?_⟩
        rw [hdby, if_pos rfl]
        exact mem_insertSet_iff.mpr (Or.inr rfl)
    · rw [if_neg ha] at hb
      rcases hsym a b hb with ⟨hTb, hab, hmem⟩
      exact ⟨hTb, hab, hmir a b hmem⟩
  · intro a b hb
    rw [hdby] at hb
    by_cases ha : a = t
    · rw [if_pos ha] at hb
      rcases mem_insertSet_iff.mp hb with hb | hb
      · rw [ha]
        exact hself t b hb
      · rw [ha, hb]
        exact fun hc => hne hc
    · rw [if_neg ha] at hb
      exact hself a b hb
  · intro x
    show x ∈ keysA (modifyA em.dependsM m (fun s => insertSet s t)) ↔ T x
    rw [keysA_modifyA]
    exact hk1 x
  · intro x
    show x ∈ keysA (modifyA em.dependedM t (fun s => insertSet s m)) ↔ T x
    rw [keysA_modifyA]
    exact hk2 x

theorem lookupA_insertA_cases {α : Type} {l : List (String × α)} {k0 k : String} {v0 w : α}
    (h : lookupA (insertA l k0 v0) k = some w) : w = v0 ∨ lookupA l k = some w := by
  by_cases hk : k0 = k
  · subst hk
    rw [lookupA_insertA_self] at h
    exact Or.inl (Option.some_inj.mp h).symm
  · rw [lookupA_insertA_ne l k0 k v0 hk] at h
    exact Or.inr h

theorem lookupA_entryOrInsertA_cases {α : Type} {l : List (String × α)} {k0 k : String}
    {v0 w : α} (h : lookupA (entryOrInsertA l k0 v0) k = some w) :
    w = v0 ∨ lookupA l k = some w := by
  by_cases hk : k0 = k
  · subst hk
    rw [lookupA_entryOrInsertA_self] at h
    rcases hl : lookupA l k0 with _ | u
    · rw [hl] at h
      exact Or.inl (Option.some_inj.mp h).symm
    · rw [hl] at h
      simp only [Option.getD_some] at h
      exact Or.inr h
  · rw [lookupA_entryOrInsertA_ne l k0 k v0 hk] at h
    exact Or.inr h

theorem fold_insert_const {α β : Type} (f : α → String) (v : β) :
    ∀ (l : List α) (acc : List (String × β)) (x : String),
      lookupA (l.foldl (fun ms m => insertA ms (f m) v) acc) x =
        if x ∈ l.map f then some v else lookupA acc x := by
  intro l
  induction l with
  | nil => intro acc x; simp
  | cons a t ih =>
    intro acc x
    rw [List.foldl_cons, ih]
    by_cases hx : x ∈ t.map f
    · rw [if_pos hx, if_pos (by simp [hx])]
    · rw [if_neg hx]
      by_cases hxa : x = f a
      · rw [if_pos (by simp [hxa]), hxa, lookupA_insertA_self]
      · rw [if_neg (by simp [hxa, hx]),
          lookupA_insertA_ne acc (f a) x v (fun hc => hxa hc.symm)]

theorem initFold_dependsM :
    ∀ (l : List (String × ModuleEntry)) (em : EdgeMaps),
      (l.foldl (fun em me =>
        (⟨insertA em.dependsM me.1 [], insertA em.dependedM me.1 []⟩ : EdgeMaps)) em).dependsM =
      l.foldl (fun ms me => insertA ms me.1 ([] : List String)) em.dependsM := by
  intro l
  induction l with
  | nil => intro em; rfl
  | cons a t ih => intro em; rw [List.foldl_cons, List.foldl_cons, ih]

theorem initFold_dependedM :
    ∀ (l : List (String × ModuleEntry)) (em : EdgeMaps),
      (l.foldl (fun em me =>
        (⟨insertA em.dependsM me.1 [], insertA em.dependedM me.1 []⟩ : EdgeMaps)) em).dependedM =
      l.foldl (fun ms me => insertA ms me.1 ([] : List String)) em.dependedM := by
  intro l
  induction l with
  | nil => intro em; rfl
  | cons a t ih => intro em; rw [List.foldl_cons, List.foldl_cons, ih]

theorem initEdgeMaps_lookup (M : List (String × ModuleEntry)) :
    (∀ x, lookupA (initEdgeMaps M).dependsM x =
      if x ∈ keysA M then some [] else none) ∧
    (∀ x, lookupA (initEdgeMaps M).dependedM x =
      if x ∈ keysA M then some [] else none) := by
  constructor
  · intro x
    show lookupA ((M.foldl (fun em me =>
      (⟨insertA em.dependsM me.1 [], insertA em.dependedM me.1 []⟩ : EdgeMaps))
      (⟨[], []⟩ : EdgeMaps)).dependsM) x = _
    rw [initFold_dependsM, fold_insert_const (fun me => me.1) ([] : List String) M [] x]
    rfl
  · intro x
    show lookupA ((M.foldl (fun em me =>
      (⟨insertA em.dependsM me.1 [], insertA em.dependedM me.1 []⟩ : EdgeMaps))
      (⟨[], []⟩ : EdgeMaps)).dependedM) x = _
    rw [initFold_dependedM, fold_insert_const (fun me => me.1) ([] : List String) M [] x]
    rfl

theorem initEdgeMaps_keyed (M : List (String × ModuleEntry)) :
    EdgeMapsKeyed (fun x => x ∈ keysA M) (initEdgeMaps M) := by
  rcases initEdgeMaps_lookup M with ⟨h1, h2⟩
  have g1 : ∀ x, getDA (initEdgeMaps M).dependsM x [] = [] := by
    intro x
    unfold getDA
    rw [h1]
    by_cases hx : x ∈ keysA M <;> simp [hx]
  have g2 : ∀ x, getDA (initEdgeMaps M).dependedM x [] = [] := by
    intro x
    unfold getDA
    rw [h2]
    by_cases hx : x ∈ keysA M <;> simp [hx]
  refine ⟨⟨?_, ?_, ?_, ?_⟩, ?_, ?_⟩
  · intro a
    rw [g1]
    exact List.nodup_nil
  · intro a
    rw [g2]
    exact List.nodup_nil
  · intro a b hb
    rw [g1] at hb
    cases hb
  · intro a b hb
    rw [g2] at hb
    cases hb
  · intro x
    rw [← lookupA_isSome, h1]
    by_cases hx : x ∈ keysA M <;> simp [hx]
  · intro x
    rw [← lookupA_isSome, h2]
    by_cases hx : x ∈ keysA M <;> simp [hx]

theorem rebuildResolve_val {pl : List (String × String)} {np src v : String}
    (h : rebuildResolve pl np src = some v) : ∃ k, lookupA pl k = some v := by
  simp only [rebuildResolve] at h
  rcases h1 : lookupA pl (posixNormalize (posixDirname np ++ "/" ++ src)) with _ | m
  · rw [h1] at h
    exact ⟨_, h⟩
  · rw [h1] at h
    exact ⟨_, h1.trans (by simpa using h)⟩

theorem resolveImportModule_val {ip src : String} {pl : List (String × String)} {v : String}
    (h : resolveImportModule ip src pl = some v) : ∃ k, lookupA pl k = some v := by
  simp only [resolveImportModule] at h
  by_cases hd : startsWithDot src = false
  · rw [if_pos hd] at h
    cases h
  · rw [if_neg hd] at h
    rcases h1 : lookupA pl (normalizeStr (pathJoinStr (pathParentStr (backslashToSlash ip)) src))
      with _ | m
    · rw [h1] at h
      exact ⟨_, h⟩
    · rw [h1] at h
      exact ⟨_, h1.trans (by simpa using h)⟩

theorem buildPathLookup_val (files : List (String × FileEntry)) :
    ∀ k v, lookupA (buildPathLookup files) k = some v →
      ∃ pf ∈ files, v = pf.2.module := by
  unfold buildPathLookup
  apply foldl_preserves
    (P := fun pl => ∀ k v, lookupA pl k = some v → ∃ pf ∈ files, v = pf.2.module)
  · intro k v h
    cases h
  · intro s pf hpf hs k v h
    rcases lookupA_entryOrInsertA_cases h with h2 | h2
    · exact ⟨pf, hpf, h2⟩
    · rcases lookupA_insertA_cases h2 with h3 | h3
      · exact ⟨pf, hpf, h3⟩
      · exact hs k v h3

theorem scanPathLookup_val (infos : List ScanFile) :
    ∀ k v, lookupA (scanPathLookup infos) k = some v →
      ∃ i ∈ infos, v = i.moduleName := by
  unfold scanPathLookup
  apply foldl_preserves
    (P := fun pl => ∀ k v, lookupA pl k = some v → ∃ i ∈ infos, v = i.moduleName)
  · intro k v h
    cases h
  · intro s i hi hs k v h
    rcases lookupA_entryOrInsertA_cases h with h2 | h2
    · exact ⟨i, hi, h2⟩
    · rcases lookupA_insertA_cases h2 with h3 | h3
      · exact ⟨i, hi, h3⟩
      · exact hs k v h3

/-- One file's inner import loop of `rebuild_dependencies` preserves the
keyed edge invariant, as long as every path-lookup value is a legal module. -/
theorem rebuildFileEdges_ok {T : String → Prop} {pl : List (String × String)}
    (hpl : ∀ k v, lookupA pl k = some v → T v)
    {em : EdgeMaps} (hok : EdgeMapsKeyed T em) (pf : String × FileEntry) :
    EdgeMapsKeyed T (rebuildFileEdges pl em pf) := by
  unfold rebuildFileEdges
  apply foldl_preserves (P := EdgeMapsKeyed T)
  · exact hok
  · intro s imp _ hs
    show EdgeMapsKeyed T (if _ then s else _)
    split
    · exact hs
    · split
      · rename_i targetMod hres
        split
        · rename_i hne
          apply recordEdge_ok hs ?_ hne
          rcases rebuildResolve_val hres with ⟨k, hk⟩
          exact hpl k targetMod hk
        · exact hs
      · exact hs

/-- One file's inner import loop of `scan_project` step 4 preserves the edge
invariant. -/
theorem scanFileStep_em_ok {T : String → Prop} {pl : List (String × String)}
    (hpl : ∀ k v, lookupA pl k = some v → T v)
    (acc : EdgeMaps × List (String × FileEntry) × List (String × ModuleEntry))
    (i : ScanFile) (hok : EdgeMapsOK T acc.1) :
    EdgeMapsOK T ((scanFileStep pl acc i).1) := by
  show EdgeMapsOK T (i.imports.foldl _ acc.1)
  apply foldl_preserves (P := EdgeMapsOK T)
  · exact hok
  · intro s imp _ hs
    show EdgeMapsOK T (if _ then s else _)
    split
    · exact hs
    · split
      · rename_i targetMod hres
        split
        · rename_i hne
          apply scanRecordEdge_ok hs ?_ hne
          rcases resolveImportModule_val hres with ⟨k, hk⟩
          exact hpl k targetMod hk
        · exact hs
      · exact hs

theorem mem_insertA {α : Type} {l : List (String × α)} {k : String} {v : α}
    {q : String × α} (h : q ∈ insertA l k v) : q = (k, v) ∨ (q ∈ l ∧ q.1 ≠ k) := by
  unfold insertA at h
  split at h
  · rcases List.mem_map.mp h with ⟨kv, hkv, hq⟩
    by_cases hk : kv.1 = k
    · left
      rw [← hq]
      simp [hk]
    · right
      constructor
      · rw [← hq]
        simpa [hk] using hkv
      · rw [← hq]
        simp [hk]
  · rename_i hnone
    rcases List.mem_append.mp h with h2 | h2
    · right
      refine ⟨h2, fun hc => ?_⟩
      have hkeys : k ∈ keysA l := by
        rw [← hc]
        exact List.mem_map_of_mem _ h2
      rw [lookupA_isSome.mpr hkeys] at hnone
      exact hnone rfl
    · left
      simpa using h2

/-- The files-modules consistency core of step 2: installing `(pf.1, pf.2)`
and registering it in its (possibly fresh) module keeps every insert-map pair
covered, given the pre-state covers every pair with another key. -/
theorem fcb_insert_core (files : List (String × FileEntry))
    (M1 : List (String × ModuleEntry)) (pf : String × FileEntry)
    (h : ∀ qf ∈ files, qf.1 ≠ pf.1 →
      ∃ e, lookupA M1 qf.2.module = some e ∧ qf.1 ∈ e.files) :
    ∀ qf ∈ insertA files pf.1 pf.2,
      ∃ e, lookupA (modifyA (entryOrInsertA M1 pf.2.module emptyModuleEntry) pf.2.module
        (fun m => if pf.1 ∈ m.files then m else { m with files := m.files ++ [pf.1] }))
        qf.2.module = some e ∧ qf.1 ∈ e.files := by
  intro qf hqf
  rcases mem_insertA hqf with hq | ⟨hmem, hne⟩
  · subst hq
    rw [lookupA_modifyA_self, lookupA_entryOrInsertA_self]
    refine ⟨_, rfl, ?_⟩
    show pf.1 ∈ (if pf.1 ∈ ((lookupA M1 pf.2.module).getD emptyModuleEntry).files
      then (lookupA M1 pf.2.module).getD emptyModuleEntry
      else { (lookupA M1 pf.2.module).getD emptyModuleEntry with
             files := ((lookupA M1 pf.2.module).getD emptyModuleEntry).files ++ [pf.1] }).files
    by_cases hin : pf.1 ∈ ((lookupA M1 pf.2.module).getD emptyModuleEntry).files
    · rw [if_pos hin]
      exact hin
    · rw [if_neg hin]
      exact List.mem_append_right _ (List.mem_singleton.mpr rfl)
  · rcases h qf hmem hne with ⟨e, he, hfe⟩
    by_cases hmod : qf.2.module = pf.2.module
    · rw [hmod, lookupA_modifyA_self, lookupA_entryOrInsertA_self]
      rw [hmod] at he
      rw [he]
      refine ⟨_, rfl, ?_⟩
      show qf.1 ∈ (if pf.1 ∈ ((some e).getD emptyModuleEntry).files
        then (some e).getD emptyModuleEntry
        else { (some e).getD emptyModuleEntry with
               files := ((some e).getD emptyModuleEntry).files ++ [pf.1] }).files
      by_cases hin : pf.1 ∈ ((some e).getD emptyModuleEntry).files
      · rw [if_pos hin]
        exact hfe
      · rw [if_neg hin]
        exact List.mem_append_left _ hfe
    · rw [lookupA_modifyA_ne _ pf.2.module qf.2.module _ (fun hc => hmod hc.symm),
        lookupA_entryOrInsertA_ne _ pf.2.module qf.2.module _ (fun hc => hmod hc.symm)]
      exact ⟨e, he, hfe⟩

theorem mergeRemoveFile_fcb (g : CodeGraph) (q : String)
    (h : FilesModulesConsistentB g) : FilesModulesConsistentB (mergeRemoveFile g q) := by
  rcases he : lookupA g.files q with _ | fd
  · have hgeq : mergeRemoveFile g q = g := by
      unfold mergeRemoveFile
      rw [he]
    rw [hgeq]
    exact h
  · have hgeq : mergeRemoveFile g q =
        { g with
            files := eraseA g.files q
            modules := modifyA g.modules fd.module
              (fun m => { m with files := m.files.filter (fun f => f ≠ q) }) } := by
      unfold mergeRemoveFile
      rw [he]
    rw [hgeq]
    intro pf hpf
    have hpf2 : pf ∈ g.files.filter (fun kv => decide (kv.1 ≠ q)) := hpf
    have hm := List.mem_filter.mp hpf2
    have hne : pf.1 ≠ q := by simpa using hm.2
    rcases h pf hm.1 with ⟨e, he2, hmem⟩
    by_cases hmod : pf.2.module = fd.module
    · rw [hmod] at he2
      refine ⟨{ e with files := e.files.filter (fun f => f ≠ q) }, ?_, ?_⟩
      · show lookupA (modifyA g.modules fd.module
          (fun m => { m with files := m.files.filter (fun f => f ≠ q) })) pf.2.module = _
        rw [hmod, lookupA_modifyA_self, he2]
        rfl
      · exact List.mem_filter.mpr ⟨hmem, by simpa using hne⟩
    · refine ⟨e, ?_, hmem⟩
      show lookupA (modifyA g.modules fd.module
        (fun m => { m with files := m.files.filter (fun f => f ≠ q) })) pf.2.module = _
      rw [lookupA_modifyA_ne g.modules fd.module pf.2.module _ (fun hc => hmod hc.symm)]
      exact he2

theorem mergeAddFile_fcb (g : CodeGraph) (pf : String × FileEntry)
    (h : FilesModulesConsistentB g) : FilesModulesConsistentB (mergeAddFile g pf) := by
  rcases he : lookupA g.files pf.1 with _ | existing
  · have hgeq : mergeAddFile g pf =
        { g with
            modules := modifyA (entryOrInsertA g.modules pf.2.module emptyModuleEntry)
              pf.2.module
              (fun m => if pf.1 ∈ m.files then m else { m with files := m.files ++ [pf.1] })
            files := insertA g.files pf.1 pf.2 } := by
      unfold mergeAddFile
      rw [he]
    rw [hgeq]
    exact fcb_insert_core g.files g.modules pf (fun qf hqf _ => h qf hqf)
  · by_cases hm : existing.module ≠ pf.2.module
    · have hgeq : mergeAddFile g pf =
          { g with
              modules := modifyA (entryOrInsertA
                (modifyA g.modules existing.module
                  (fun m => { m with files := m.files.filter (fun f => f ≠ pf.1) }))
                pf.2.module emptyModuleEntry) pf.2.module
                (fun m => if pf.1 ∈ m.files then m
                  else { m with files := m.files ++ [pf.1] })
              files := insertA g.files pf.1 pf.2 } := by
        simp only [mergeAddFile, he]
        rw [if_pos hm]
      rw [hgeq]
      apply fcb_insert_core
      intro qf hqf hne
      rcases h qf hqf with ⟨e, he2, hfe⟩
      by_cases hmod : qf.2.module = existing.module
      · rw [hmod, lookupA_modifyA_self]
        rw [hmod] at he2
        rw [he2]
        exact ⟨_, rfl, List.mem_filter.mpr ⟨hfe, by simpa using hne⟩⟩
      · rw [lookupA_modifyA_ne g.modules existing.module qf.2.module _
          (fun hc => hmod hc.symm)]
        exact ⟨e, he2, hfe⟩
    · have hgeq : mergeAddFile g pf =
          { g with
              modules := modifyA (entryOrInsertA g.modules pf.2.module emptyModuleEntry)
                pf.2.module
                (fun m => if pf.1 ∈ m.files then m
                  else { m with files := m.files ++ [pf.1] })
              files := insertA g.files pf.1 pf.2 } := by
        simp only [mergeAddFile, he]
        rw [if_neg hm]
      rw [hgeq]
      exact fcb_insert_core g.files g.modules pf (fun qf hqf _ => h qf hqf)

theorem reap_fcb (g : CodeGraph) (h : FilesModulesConsistentB g) :
    FilesModulesConsistentB
      { g with modules := g.modules.filter (fun me => ¬ me.2.files.isEmpty) } := by
  intro pf hpf
  rcases h pf hpf with ⟨e, he, hmem⟩
  refine ⟨e, ?_, hmem⟩
  apply lookupA_filter_of_lookupA he
  simp only [decide_eq_true_eq]
  intro hc
  rw [List.isEmpty_iff] at hc
  rw [hc] at hmem
  cases hmem

theorem writebackEdges_lookup (M : List (String × ModuleEntry)) (em : EdgeMaps)
    (a : String) :
    lookupA (writebackEdges M em) a = (lookupA M a).map (fun e =>
      { e with
          dependsOn := sortStrings (getDA em.dependsM a [])
          dependedBy := sortStrings (getDA em.dependedM a []) }) := by
  unfold writebackEdges
  exact lookupA_mapVal
    (fun k e => { e with
        dependsOn := sortStrings (getDA em.dependsM k [])
        dependedBy := sortStrings (getDA em.dependedM k []) }) M a

/-- Invariants of a graph produced by `rebuild_dependencies` over a state
whose files-modules consistency holds pairwise. -/
theorem rebuildDependencies_inv (g : CodeGraph) (h : FilesModulesConsistentB g) :
    EdgeSymm (rebuildDependencies g) ∧ EdgeListsClean (rebuildDependencies g) ∧
    FilesConsistent (rebuildDependencies g) ∧
    (∀ m e, lookupA (rebuildDependencies g).modules m = some e →
      ∃ e0, lookupA g.modules m = some e0 ∧ e.files = e0.files) := by
  have hpl : ∀ k v, lookupA (buildPathLookup g.files) k = some v → v ∈ keysA g.modules := by
    intro k v hk
    rcases buildPathLookup_val g.files k v hk with ⟨pf, hpf, hv⟩
    rcases h pf hpf with ⟨e, he, _⟩
    subst hv
    exact lookupA_isSome.mp (by simp [he])
  have hem : EdgeMapsKeyed (fun x => x ∈ keysA g.modules)
      (g.files.foldl (rebuildFileEdges (buildPathLookup g.files)) (initEdgeMaps g.modules)) := by
    apply foldl_preserves (P := EdgeMapsKeyed (fun x => x ∈ keysA g.modules))
    · exact initEdgeMaps_keyed g.modules
    · intro s pf _ hs
      exact rebuildFileEdges_ok hpl hs pf
  obtain ⟨⟨hnd1, hnd2, hsym, hself⟩, hk1, hk2⟩ := hem
  have hlook : ∀ a, lookupA (rebuildDependencies g).modules a =
      (lookupA g.modules a).map (fun e =>
        { e with
            dependsOn := sortStrings (getDA (g.files.foldl
              (rebuildFileEdges (buildPathLookup g.files)) (initEdgeMaps g.modules)).dependsM a [])
            dependedBy := sortStrings (getDA (g.files.foldl
              (rebuildFileEdges (buildPathLookup g.files)) (initEdgeMaps g.modules)).dependedM a []) }) := by
    intro a
    exact writebackEdges_lookup g.modules _ a
  refine ⟨?_, ?_, ?_, ?_⟩
  · intro a ea b hea hb
    rw [hlook a] at hea
    rcases Option.map_eq_some'.mp hea with ⟨e0, he0, hwa⟩
    rw [← hwa] at hb
    have hb2 := mem_sortStrings.mp hb
    rcases hsym a b hb2 with ⟨hTb, hab, hmir⟩
    rcases Option.isSome_iff_exists.mp (lookupA_isSome.mpr hTb) with ⟨eb0, heb0⟩
    refine ⟨_, by rw [hlook b, heb0]; rfl, ?_⟩
    show a ∈ sortStrings _
    exact mem_sortStrings.mpr hmir
  · intro a ea hea
    rw [hlook a] at hea
    rcases Option.map_eq_some'.mp hea with ⟨e0, he0, hwa⟩
    rw [← hwa]
    refine ⟨sortStrings_sorted _, sortStrings_nodup (hnd1 a), ?_,
      sortStrings_sorted _, sortStrings_nodup (hnd2 a), ?_⟩
    · intro hmem
      exact (hsym a a (mem_sortStrings.mp hmem)).2.1 rfl
    · intro hmem
      exact hself a a (mem_sortStrings.mp hmem) rfl
  · intro p fd hp
    have hp2 : lookupA g.files p = some fd := hp
    rcases h (p, fd) (lookupA_mem hp2) with ⟨e, he, hmem⟩
    refine ⟨{ e with
        dependsOn := sortStrings (getDA (g.files.foldl
          (rebuildFileEdges (buildPathLookup g.files)) (initEdgeMaps g.modules)).dependsM fd.module [])
        dependedBy := sortStrings (getDA (g.files.foldl
          (rebuildFileEdges (buildPathLookup g.files)) (initEdgeMaps g.modules)).dependedM fd.module []) },
      ?_, ?_⟩
    · rw [hlook fd.module, he]
      rfl
    · exact hmem
  · intro m e hm
    rw [hlook m] at hm
    rcases Option.map_eq_some'.mp hm with ⟨e0, he0, hw⟩
    exact ⟨e0, he0, by rw [← hw]⟩

/-- `merge_graph_update` establishes all four graph invariants, given
files-modules consistency of its input (which every scanner output enjoys). -/
theorem mergeGraphUpdate_inv (g : CodeGraph) (u : List (String × FileEntry))
    (r : List String) (h : FilesModulesConsistentB g) :
    GraphInv (mergeGraphUpdate g u r) := by
  have h1 : FilesModulesConsistentB (r.foldl mergeRemoveFile g) :=
    foldl_preserves mergeRemoveFile r g h (fun s q _ hs => mergeRemoveFile_fcb s q hs)
  have h2 : FilesModulesConsistentB (u.foldl mergeAddFile (r.foldl mergeRemoveFile g)) :=
    foldl_preserves mergeAddFile u _ h1 (fun s pf _ hs => mergeAddFile_fcb s pf hs)
  have h3 := reap_fcb _ h2
  have h4 : FilesModulesConsistentB (recalculateSummary
      { u.foldl mergeAddFile (r.foldl mergeRemoveFile g) with
        modules := ((u.foldl mergeAddFile (r.foldl mergeRemoveFile g)).modules).filter
          (fun me => ¬ me.2.files.isEmpty) }) := h3
  have hmain := rebuildDependencies_inv _ h4
  obtain ⟨hes, hcl, hfc, hfp⟩ := hmain
  refine ⟨?_, hes, hcl, hfc⟩
  intro m e hm
  rcases hfp m e hm with ⟨e0, he0, hfe⟩
  have he0f : lookupA (((u.foldl mergeAddFile (r.foldl mergeRemoveFile g)).modules).filter
      (fun me => ¬ me.2.files.isEmpty)) m = some e0 := he0
  have hP := lookupA_filter_pred he0f
  simp only [decide_eq_true_eq] at hP
  rw [hfe]
  intro hc
  apply hP
  rw [hc]
  rfl

theorem mem_scanFold_moduleSet :
    ∀ (infos : List ScanFile) (acc : List String) (x : String),
      (x ∈ infos.foldl (fun s i => insertSet s i.moduleName) acc ↔
        x ∈ acc ∨ ∃ i ∈ infos, i.moduleName = x) := by
  intro infos
  induction infos with
  | nil => intro acc x; simp
  | cons a t ih =>
    intro acc x
    rw [List.foldl_cons, ih]
    constructor
    · rintro (h | h)
      · rcases mem_insertSet.mp h with h | h
        · exact Or.inl h
        · exact Or.inr ⟨a, List.mem_cons_self _ _, h.symm⟩
      · rcases h with ⟨i, hi, hx⟩
        exact Or.inr ⟨i, List.mem_cons_of_mem _ hi, hx⟩
    · rintro (h | ⟨i, hi, hx⟩)
      · exact Or.inl (mem_insertSet.mpr (Or.inl h))
      · rcases List.mem_cons.mp hi with h | h
        · subst h
          exact Or.inl (mem_insertSet.mpr (Or.inr hx.symm))
        · exact Or.inr ⟨i, h, hx⟩

theorem mem_scanModuleSet {infos : List ScanFile} {x : String} :
    x ∈ scanModuleSet infos ↔ ∃ i ∈ infos, i.moduleName = x := by
  unfold scanModuleSet
  rw [mem_scanFold_moduleSet]
  simp

theorem scanInitFold_dependsM :
    ∀ (l : List String) (em : EdgeMaps),
      (l.foldl (fun em m =>
        (⟨insertA em.dependsM m [], insertA em.dependedM m []⟩ : EdgeMaps)) em).dependsM =
      l.foldl (fun ms m => insertA ms m ([] : List String)) em.dependsM := by
  intro l
  induction l with
  | nil => intro em; rfl
  | cons a t ih => intro em; rw [List.foldl_cons, List.foldl_cons, ih]

theorem scanInitFold_dependedM :
    ∀ (l : List String) (em : EdgeMaps),
      (l.foldl (fun em m =>
        (⟨insertA em.dependsM m [], insertA em.dependedM m []⟩ : EdgeMaps)) em).dependedM =
      l.foldl (fun ms m => insertA ms m ([] : List String)) em.dependedM := by
  intro l
  induction l with
  | nil => intro em; rfl
  | cons a t ih => intro em; rw [List.foldl_cons, List.foldl_cons, ih]

theorem scanEm0_getDA (moduleSet : List String) :
    (∀ x, getDA ((moduleSet.foldl
        (fun em m => (⟨insertA em.dependsM m [], insertA em.dependedM m []⟩ : EdgeMaps))
        (⟨[], []⟩ : EdgeMaps)).dependsM) x [] = []) ∧
    (∀ x, getDA ((moduleSet.foldl
        (fun em m => (⟨insertA em.dependsM m [], insertA em.dependedM m []⟩ : EdgeMaps))
        (⟨[], []⟩ : EdgeMaps)).dependedM) x [] = []) := by
  constructor <;> intro x
  · unfold getDA
    rw [scanInitFold_dependsM, fold_insert_const (fun m => m) ([] : List String) moduleSet [] x]
    split <;> rfl
  · unfold getDA
    rw [scanInitFold_dependedM, fold_insert_const (fun m => m) ([] : List String) moduleSet [] x]
    split <;> rfl

theorem scanEm0_ok (moduleSet : List String) (T : String → Prop) :
    EdgeMapsOK T (moduleSet.foldl
      (fun em m => (⟨insertA em.dependsM m [], insertA em.dependedM m []⟩ : EdgeMaps))
      (⟨[], []⟩ : EdgeMaps)) := by
  rcases scanEm0_getDA moduleSet with ⟨h1, h2⟩
  refine ⟨?_, ?_, ?_, ?_⟩
  · intro a
    rw [h1]
    exact List.nodup_nil
  · intro a
    rw [h2]
    exact List.nodup_nil
  · intro a b hb
    rw [h1] at hb
    cases hb
  · intro a b hb
    rw [h2] at hb
    cases hb

theorem modules0_lookup (moduleSet : List String) (x : String) :
    lookupA (moduleSet.foldl (fun ms m => insertA ms m emptyModuleEntry) []) x =
      if x ∈ moduleSet then some emptyModuleEntry else none := by
  rw [fold_insert_const (fun m => m) emptyModuleEntry moduleSet [] x]
  by_cases hx : x ∈ moduleSet
  · rw [if_pos (by simpa using hx), if_pos hx]
  · rw [if_neg (by simpa using hx), if_neg hx]
    rfl

theorem scanFold_modules_keys (pl : List (String × String)) (infos : List ScanFile)
    (acc : EdgeMaps × List (String × FileEntry) × List (String × ModuleEntry)) :
    keysA ((infos.foldl (scanFileStep pl) acc).2.2) = keysA acc.2.2 := by
  apply foldl_preserves
    (P := fun (s : EdgeMaps × List (String × FileEntry) × List (String × ModuleEntry)) =>
      keysA s.2.2 = keysA acc.2.2)
  · rfl
  · intro s i _ hs
    show keysA (modifyA s.2.2 i.moduleName
      (fun m => { m with files := m.files ++ [i.relPath] })) = _
    rw [keysA_modifyA]
    exact hs

/-- The step-4 fold only ever appends to a module's files list. -/
theorem scanFold_files_append (pl : List (String × String)) :
    ∀ (infos : List ScanFile)
      (acc : EdgeMaps × List (String × FileEntry) × List (String × ModuleEntry))
      (x : String) (e : ModuleEntry),
      lookupA ((infos.foldl (scanFileStep pl) acc).2.2) x = some e →
      ∃ e0 t, lookupA acc.2.2 x = some e0 ∧ e.files = e0.files ++ t := by
  intro infos
  induction infos with
  | nil =>
    intro acc x e h
    exact ⟨e, [], h, (List.append_nil _).symm⟩
  | cons i rest ih =>
    intro acc x e h
    rw [List.foldl_cons] at h
    rcases ih (scanFileStep pl acc i) x e h with ⟨e1, t1, h1, hft⟩
    have h1b : lookupA (modifyA acc.2.2 i.moduleName
        (fun m => { m with files := m.files ++ [i.relPath] })) x = some e1 := h1
    by_cases hx : x = i.moduleName
    · subst hx
      rw [lookupA_modifyA_self] at h1b
      rcases Option.map_eq_some'.mp h1b with ⟨e0, he0, hpush⟩
      subst hpush
      refine ⟨e0, [i.relPath] ++ t1, he0, ?_⟩
      rw [hft]
      show (e0.files ++ [i.relPath]) ++ t1 = e0.files ++ ([i.relPath] ++ t1)
      rw [List.append_assoc]
    · rw [lookupA_modifyA_ne acc.2.2 i.moduleName x _ (fun hc => hx hc.symm)] at h1b
      exact ⟨e1, t1, h1b, hft⟩

/-- After the step-4 fold, the module of any processed file has a non-empty
files list: its own relPath was pushed when the file was handled. -/
theorem scanFold_module_nonempty (pl : List (String × String)) :
    ∀ (infos : List ScanFile)
      (acc : EdgeMaps × List (String × FileEntry) × List (String × ModuleEntry)),
      ∀ i ∈ infos, ∀ e,
        lookupA ((infos.foldl (scanFileStep pl) acc).2.2) i.moduleName = some e →
        e.files ≠ [] := by
  intro infos
  induction infos with
  | nil => intro acc i hi; cases hi
  | cons j rest ih =>
    intro acc i hi e h
    rw [List.foldl_cons] at h
    rcases List.mem_cons.mp hi with hij | hir
    · rcases scanFold_files_append pl rest (scanFileStep pl acc j) i.moduleName e h
        with ⟨e1, t1, h1, hft⟩
      have h1b : lookupA (modifyA acc.2.2 j.moduleName
          (fun m => { m with files := m.files ++ [j.relPath] })) i.moduleName = some e1 := h1
      rw [hij, lookupA_modifyA_self] at h1b
      rcases Option.map_eq_some'.mp h1b with ⟨e0, he0, hpush⟩
      subst hpush
      rw [hft]
      intro hc
      have hc2 : (e0.files ++ [j.relPath]) ++ t1 = [] := hc
      simp at hc2
    · exact ih (scanFileStep pl acc j) i hir e h

/-- Files-modules consistency of the step-4 fold state: every installed file
entry is registered in its module's files list, provided every scanned
module name is a key of the initial module table. -/
theorem scanFold_fcb (pl : List (String × String)) :
    ∀ (infos : List ScanFile)
      (acc : EdgeMaps × List (String × FileEntry) × List (String × ModuleEntry)),
      (∀ i ∈ infos, i.moduleName ∈ keysA acc.2.2) →
      (∀ p fd, lookupA acc.2.1 p = some fd →
        ∃ e, lookupA acc.2.2 fd.module = some e ∧ p ∈ e.files) →
      ∀ p fd, lookupA ((infos.foldl (scanFileStep pl) acc).2.1) p = some fd →
        ∃ e, lookupA ((infos.foldl (scanFileStep pl) acc).2.2) fd.module = some e ∧
          p ∈ e.files := by
  intro infos
  induction infos with
  | nil => intro acc _ hfcb p fd h; exact hfcb p fd h
  | cons i rest ih =>
    intro acc hkeys hfcb p fd h
    rw [List.foldl_cons] at h ⊢
    refine ih (scanFileStep pl acc i) ?_ ?_ p fd h
    · intro j hj
      have hk : keysA ((scanFileStep pl acc i).2.2) = keysA acc.2.2 := by
        show keysA (modifyA acc.2.2 i.moduleName
          (fun m => { m with files := m.files ++ [i.relPath] })) = _
        rw [keysA_modifyA]
      rw [hk]
      exact hkeys j (List.mem_cons_of_mem _ hj)
    · intro q qd hq
      have hq2 : lookupA (insertA acc.2.1 i.relPath (scanFileEntry i)) q = some qd := hq
      have hmodk : i.moduleName ∈ keysA acc.2.2 := hkeys i (List.mem_cons_self _ _)
      rcases Option.isSome_iff_exists.mp (lookupA_isSome.mpr hmodk) with ⟨me, hme⟩
      by_cases hqr : q = i.relPath
      · subst hqr
        rw [lookupA_insertA_self] at hq2
        have hqd : qd = scanFileEntry i := (Option.some_inj.mp hq2).symm
        subst hqd
        refine ⟨{ me with files := me.files ++ [i.relPath] }, ?_, ?_⟩
        · show lookupA (modifyA acc.2.2 i.moduleName
            (fun m => { m with files := m.files ++ [i.relPath] }))
            (scanFileEntry i).module = _
          have hsm : (scanFileEntry i).module = i.moduleName := rfl
          rw [hsm, lookupA_modifyA_self, hme]
          rfl
        · exact List.mem_append_right _ (List.mem_singleton.mpr rfl)
      · rw [lookupA_insertA_ne acc.2.1 i.relPath q _ (fun hc => hqr hc.symm)] at hq2
        rcases hfcb q qd hq2 with ⟨e, he, hmem⟩
        by_cases hmod : qd.module = i.moduleName
        · refine ⟨{ e with files := e.files ++ [i.relPath] }, ?_, ?_⟩
          · show lookupA (modifyA acc.2.2 i.moduleName
              (fun m => { m with files := m.files ++ [i.relPath] })) qd.module = _
            rw [hmod, lookupA_modifyA_self]
            rw [hmod] at he
            rw [he]
            rfl
          · exact List.mem_append_left _ hmem
        · refine ⟨e, ?_, hmem⟩
          show lookupA (modifyA acc.2.2 i.moduleName
            (fun m => { m with files := m.files ++ [i.relPath] })) qd.module = _
          rw [lookupA_modifyA_ne acc.2.2 i.moduleName qd.module _ (fun hc => hmod hc.symm)]
          exact he

/-- Invariants of the graph assembled from the step-3/4/5 state of
`scan_project`, abstracted over the fold result `st`. -/
theorem scanCore_inv (pl : List (String × String)) (ms : List String)
    (infos : List ScanFile) (g : CodeGraph)
    (st : EdgeMaps × List (String × FileEntry) × List (String × ModuleEntry))
    (hst : st = infos.foldl (scanFileStep pl)
      (ms.foldl (fun em m =>
        (⟨insertA em.dependsM m [], insertA em.dependedM m []⟩ : EdgeMaps))
        (⟨[], []⟩ : EdgeMaps),
       ([] : List (String × FileEntry)),
       ms.foldl (fun acc m => insertA acc m emptyModuleEntry)
        ([] : List (String × ModuleEntry))))
    (hpl : ∀ k v, lookupA pl k = some v → v ∈ ms)
    (hmNE : ∀ m ∈ ms, ∃ i ∈ infos, i.moduleName = m)
    (hmods : ∀ i ∈ infos, i.moduleName ∈ ms)
    (hgm : g.modules = writebackEdges st.2.2 st.1)
    (hgf : g.files = st.2.1) :
    GraphInv g := by
  subst hst
  have hemok : EdgeMapsOK (fun x => x ∈ ms)
      ((infos.foldl (scanFileStep pl)
        (ms.foldl (fun em m =>
          (⟨insertA em.dependsM m [], insertA em.dependedM m []⟩ : EdgeMaps))
          (⟨[], []⟩ : EdgeMaps),
         ([] : List (String × FileEntry)),
         ms.foldl (fun acc m => insertA acc m emptyModuleEntry)
          ([] : List (String × ModuleEntry)))).1) := by
    apply foldl_preserves
      (P := fun (s : EdgeMaps × List (String × FileEntry) × List (String × ModuleEntry)) =>
        EdgeMapsOK (fun x => x ∈ ms) s.1)
    · exact scanEm0_ok ms _
    · intro s i _ hs
      exact scanFileStep_em_ok hpl s i hs
  obtain ⟨hnd1, hnd2, hsym, hself⟩ := hemok
  have hkeys : keysA ((infos.foldl (scanFileStep pl)
      (ms.foldl (fun em m =>
        (⟨insertA em.dependsM m [], insertA em.dependedM m []⟩ : EdgeMaps))
        (⟨[], []⟩ : EdgeMaps),
       ([] : List (String × FileEntry)),
       ms.foldl (fun acc m => insertA acc m emptyModuleEntry)
        ([] : List (String × ModuleEntry)))).2.2) =
      keysA (ms.foldl (fun acc m => insertA acc m emptyModuleEntry)
        ([] : List (String × ModuleEntry))) :=
    scanFold_modules_keys pl infos _
  have hmemkeys : ∀ x, x ∈ keysA (ms.foldl (fun acc m => insertA acc m emptyModuleEntry)
      ([] : List (String × ModuleEntry))) ↔ x ∈ ms := by
    intro x
    rw [← lookupA_isSome, modules0_lookup]
    by_cases hx : x ∈ ms <;> simp [hx]
  have hmodlook : ∀ a, lookupA g.modules a =
      (lookupA ((infos.foldl (scanFileStep pl)
        (ms.foldl (fun em m =>
          (⟨insertA em.dependsM m [], insertA em.dependedM m []⟩ : EdgeMaps))
          (⟨[], []⟩ : EdgeMaps),
         ([] : List (String × FileEntry)),
         ms.foldl (fun acc m => insertA acc m emptyModuleEntry)
          ([] : List (String × ModuleEntry)))).2.2) a).map (fun e =>
        { e with
            dependsOn := sortStrings (getDA ((infos.foldl (scanFileStep pl)
              (ms.foldl (fun em m =>
                (⟨insertA em.dependsM m [], insertA em.dependedM m []⟩ : EdgeMaps))
                (⟨[], []⟩ : EdgeMaps),
               ([] : List (String × FileEntry)),
               ms.foldl (fun acc m => insertA acc m emptyModuleEntry)
                ([] : List (String × ModuleEntry)))).1).dependsM a [])
            dependedBy := sortStrings (getDA ((infos.foldl (scanFileStep pl)
              (ms.foldl (fun em m =>
                (⟨insertA em.dependsM m [], insertA em.dependedM m []⟩ : EdgeMaps))
                (⟨[], []⟩ : EdgeMaps),
               ([] : List (String × FileEntry)),
               ms.foldl (fun acc m => insertA acc m emptyModuleEntry)
                ([] : List (String × ModuleEntry)))).1).dependedM a []) }) := by
    intro a
    rw [hgm]
    exact writebackEdges_lookup _ _ a
  refine ⟨?_, ?_, ?_, ?_⟩
  · intro m e hm
    rw [hmodlook m] at hm
    rcases Option.map_eq_some'.mp hm with ⟨e0, he0, hw⟩
    have hmms : m ∈ ms := by
      have hkm := lookupA_isSome.mp (Option.isSome_iff_exists.mpr ⟨e0, he0⟩)
      rw [hkeys] at hkm
      exact (hmemkeys m).mp hkm
    rcases hmNE m hmms with ⟨i, hi, him⟩
    have hne := scanFold_module_nonempty pl infos _ i hi e0 (by rw [him]; exact he0)
    rw [← hw]
    exact hne
  · intro a ea b hea hb
    rw [hmodlook a] at hea
    rcases Option.map_eq_some'.mp hea with ⟨e0, he0, hw⟩
    rw [← hw] at hb
    have hb2 := mem_sortStrings.mp hb
    rcases hsym a b hb2 with ⟨hTb, hab, hmir⟩
    have hbk : b ∈ keysA ((infos.foldl (scanFileStep pl)
        (ms.foldl (fun em m =>
          (⟨insertA em.dependsM m [], insertA em.dependedM m []⟩ : EdgeMaps))
          (⟨[], []⟩ : EdgeMaps),
         ([] : List (String × FileEntry)),
         ms.foldl (fun acc m => insertA acc m emptyModuleEntry)
          ([] : List (String × ModuleEntry)))).2.2) := by
      rw [hkeys]
      exact (hmemkeys b).mpr hTb
    rcases Option.isSome_iff_exists.mp (lookupA_isSome.mpr hbk) with ⟨eb0, heb0⟩
    refine ⟨_, by rw [hmodlook b, heb0]; rfl, ?_⟩
    show a ∈ sortStrings _
    exact mem_sortStrings.mpr hmir
  · intro a ea hea
    rw [hmodlook a] at hea
    rcases Option.map_eq_some'.mp hea with ⟨e0, he0, hw⟩
    rw [← hw]
    refine ⟨sortStrings_sorted _, sortStrings_nodup (hnd1 a), ?_,
      sortStrings_sorted _, sortStrings_nodup (hnd2 a), ?_⟩
    · intro hmem
      exact (hsym a a (mem_sortStrings.mp hmem)).2.1 rfl
    · intro hmem
      exact hself a a (mem_sortStrings.mp hmem) rfl
  · intro p fd hp
    have hp2 : lookupA ((infos.foldl (scanFileStep pl)
        (ms.foldl (fun em m =>
          (⟨insertA em.dependsM m [], insertA em.dependedM m []⟩ : EdgeMaps))
          (⟨[], []⟩ : EdgeMaps),
         ([] : List (String × FileEntry)),
         ms.foldl (fun acc m => insertA acc m emptyModuleEntry)
          ([] : List (String × ModuleEntry)))).2.1) p = some fd := by
      rw [← hgf]
      exact hp
    rcases scanFold_fcb pl infos _
      (fun i hi => (hmemkeys i.moduleName).mpr (hmods i hi))
      (fun q qd hq => by cases hq) p fd hp2 with ⟨e0, he0, hmem⟩
    refine ⟨_, by rw [hmodlook fd.module, he0]; rfl, ?_⟩
    exact hmem

/-- Steps 3 to 6 of `scan_project` establish all four graph invariants. -/
theorem scanBuild_inv (pn rs now : String) (infos : List ScanFile) :
    GraphInv (scanBuild pn rs now infos) := by
  apply scanCore_inv (scanPathLookup infos) (scanModuleSet infos) infos
    (scanBuild pn rs now infos) _ rfl
  · intro k v h
    rcases scanPathLookup_val infos k v h with ⟨i, hi, hv⟩
    exact mem_scanModuleSet.mpr ⟨i, hi, hv.symm⟩
  · intro m hm
    exact mem_scanModuleSet.mp hm
  · intro i hi
    exact mem_scanModuleSet.mpr ⟨i, hi, rfl⟩
  · rfl
  · rfl

def c1File : FileEntry :=
  ⟨"typescript", "core", "sha256:0011223344556677", 5, [], [], [], [], [], false⟩

def c1Graph : CodeGraph :=
  ⟨"1.0", ⟨"w", "/w"⟩, "2026-01-02T00:00:00.000Z", none, ⟨[], []⟩,
   ⟨1, 0, 0, [], [], []⟩, [("core", ⟨["src/a.ts"], [], []⟩)], [("src/a.ts", c1File)]⟩

/-- C1: every graph produced by a full scan (`scan_project`, steps 3 to 6 over
the parsed per-file records) satisfies the four structural invariants, and so
does every graph produced by an incremental merge (`merge_graph_update`
followed by its recompute phase) from an input whose file entries are
consistently registered in their modules: no module entry has an empty files
list, every `dependsOn` edge is mirrored in `dependedBy`, both edge lists are
sorted, duplicate-free and self-loop-free, and every file's `module` field is
a key of `modules` whose files list contains the file's relPath. -/
theorem scan_merge_invariants :
    (∀ pn rs now infos, GraphInv (scanBuild pn rs now infos)) ∧
    (∀ g u r, FilesModulesConsistentB g → GraphInv (mergeGraphUpdate g u r)) :=
  ⟨fun pn rs now infos => scanBuild_inv pn rs now infos,
   fun g u r h => mergeGraphUpdate_inv g u r h⟩

/-- Closed C1 witness: the merge hypothesis holds of a concrete one-file
graph, and both conjuncts are instantiated there. -/
theorem scan_merge_invariants_witness :
    FilesModulesConsistentB c1Graph ∧
    GraphInv (scanBuild "w" "/w" "2026-01-02T00:00:00.000Z" []) ∧
    GraphInv (mergeGraphUpdate c1Graph [] []) :=
  ⟨by decide,
   scan_merge_invariants.1 "w" "/w" "2026-01-02T00:00:00.000Z" [],
   scan_merge_invariants.2 c1Graph [] [] (by decide)⟩
